import Mathlib

/-! EnigmaIOT helper functions.

A shallow embedding of `src/helperFunctions.cpp` (`calculateCRC32`, `mac2str`,
`str2mac`) and the properties of these functions.

Conventions of the embedding:

* a byte (`uint8_t`, `char`) is a `Nat` below 256; a `uint32_t` is a `Nat`
  below `2 ^ 32`, and every operation that can overflow is reduced modulo
  `2 ^ 32` explicitly;
* a `const uint8_t*` together with its length is a `List Nat`;
* a `const char*` is the list of the bytes stored from the pointer onwards;
  reading beyond the end of the list reads `0`, so the C string is the part
  of the list before its first `0` byte (or all of it);
* a pointer that may be `NULL` is an `Option`.
-/

namespace EnigmaIOT

/-! ## calculateCRC32 -/

/-- One pass through the body of the inner `for` loop of `calculateCRC32`
for data byte `c`, mask `i` and register `crc`. -/
def crcBitStep (c i crc : Nat) : Nat :=
  let bit : Bool := (crc &&& 0x80000000) != 0
  let bit : Bool := if (c &&& i) != 0 then !bit else bit
  let crc := (crc <<< 1) % 2 ^ 32
  if bit then crc ^^^ 0x04c11db7 else crc

/-- The inner loop `for (uint32_t i = 0x80; i > 0; i >>= 1)`, entered with the
current mask `i`. `fuel` bounds the number of iterations; eight are enough
from `0x80` (see `crcBitLoop_fuel`). -/
def crcBitLoop : Nat → Nat → Nat → Nat → Nat
  | 0, _, _, crc => crc
  | fuel + 1, c, i, crc =>
    if i > 0 then crcBitLoop fuel c (i >>> 1) (crcBitStep c i crc) else crc

/-- The outer loop `while (length--)` over the bytes of `data`, from the
register value `crc`. -/
def crcLoop : List Nat → Nat → Nat
  | [], crc => crc
  | c :: data, crc => crcLoop data (crcBitLoop 8 c 0x80 crc)

/-- The function `calculateCRC32 (data, length)`. -/
def calculateCRC32 (data : List Nat) : Nat :=
  crcLoop data 0xffffffff

/-! ### The CRC-32/MPEG-2 reference, as the specification words it -/

/-- Reference shift: `r` becomes `(r << 1) XOR 0x04C11DB7` if the top bit of
`r` was set, else `r << 1`, modulo `2 ^ 32`. -/
def refShift (r : Nat) : Nat :=
  if r.testBit 31 then ((r <<< 1) ^^^ 0x04C11DB7) % 2 ^ 32 else (r <<< 1) % 2 ^ 32

/-- Reference byte update: XOR the byte into the top 8 bits of the register,
then shift eight times. -/
def refByte (r b : Nat) : Nat :=
  refShift^[8] (r ^^^ (b <<< 24))

/-- Reference CRC-32/MPEG-2: register `0xFFFFFFFF` at the start, one byte
update per byte in order, no reflection and no final XOR. -/
def crc32Mpeg2Ref (d : List Nat) : Nat :=
  d.foldl refByte 0xFFFFFFFF

/-! ## C strings and character classes -/

/-- The bytes of a string literal. -/
def ofString (s : String) : List Nat :=
  s.toList.map Char.toNat

/-- Dereference `*p` of a `const char*`: the first byte stored at `p`, and
`0` (the terminator) when the list is exhausted. -/
def peek (p : List Nat) : Nat :=
  p.headD 0

/-- The C string stored in a buffer: its bytes before the first `0`. -/
def cstr (mem : List Nat) : List Nat :=
  mem.takeWhile (fun c => c != 0)

/-- The C library `tolower` in the "C" locale: `'A'..'Z'` go to `'a'..'z'`,
every other value is returned unchanged. -/
def tolower (c : Nat) : Nat :=
  if 65 ≤ c ∧ c ≤ 90 then c + 32 else c

/-- The C library `isdigit`: `'0'..'9'`. -/
def isdigit (c : Nat) : Bool :=
  decide (48 ≤ c) && decide (c ≤ 57)

/-- The C library `isspace` in the "C" locale: space, `\t`, `\n`, `\v`,
`\f`, `\r`. -/
def isspace (c : Nat) : Bool :=
  c == 32 || (decide (9 ≤ c) && decide (c ≤ 13))

/-! ## mac2str -/

/-- Value returned by `mac2str` and `str2mac`: `NULL`, or the output buffer
pointer the caller passed in. -/
inductive Ret where
  | null
  | buffer
  deriving DecidableEq, Repr

/-- The uppercase hexadecimal digit that `%X` prints for a digit value
below 16. -/
def hexDigitUpper (d : Nat) : Nat :=
  if d < 10 then 48 + d else 55 + d

/-- The digits `%X` prints for `v`, most significant first, without padding;
`fuel` bounds the number of digits. -/
def hexDigitsUpper : Nat → Nat → List Nat
  | 0, _ => []
  | fuel + 1, v =>
    if v < 16 then [hexDigitUpper v]
    else hexDigitsUpper fuel (v / 16) ++ [hexDigitUpper (v % 16)]

/-- The conversion `%02X` of printf applied to an `unsigned int` (at most
eight hexadecimal digits): uppercase digits, padded with `'0'` on the left
to a width of at least two. -/
def fmt02X (v : Nat) : List Nat :=
  let ds := hexDigitsUpper 8 v
  List.replicate (2 - ds.length) 48 ++ ds

/-- Modelled from the spec: the macro `MAC2STR` is used by `mac2str` but is
not defined in the sources at hand; the specification says that mac_to_string
formats the six bytes of the address in order, so `MAC2STR (mac)` is the
argument list `mac[0], mac[1], mac[2], mac[3], mac[4], mac[5]`. -/
def MAC2STR (mac : List Nat) : List Nat :=
  [mac.getD 0 0, mac.getD 1 0, mac.getD 2 0, mac.getD 3 0, mac.getD 4 0, mac.getD 5 0]

/-- The format `MACSTR`, `"%02X:%02X:%02X:%02X:%02X:%02X"`, applied to an
argument list: each argument printed with `%02X`, with `':'` in between. -/
def MACSTR : List Nat → List Nat
  | [] => []
  | [a] => fmt02X a
  | a :: args => fmt02X a ++ 58 :: MACSTR args

/-- The C library `snprintf (buffer, size, ...)`, given the fully formatted
text: at most `size - 1` characters of it are stored at the start of
`buffer`, followed by a terminating `0`; the rest of the buffer is left as
it was. Nothing is written when `size` is `0`. -/
def snprintf (buffer : List Nat) (size : Nat) (formatted : List Nat) : List Nat :=
  if size = 0 then buffer
  else
    let out := formatted.take (size - 1) ++ [0]
    out ++ buffer.drop out.length

/-- The function `mac2str (mac, buffer)`. Each pointer is `none` when it is
`NULL`, else the bytes it points to. The result is the returned pointer and
the contents of `buffer` after the call. -/
def mac2str (mac : Option (List Nat)) (buffer : Option (List Nat)) :
    Ret × Option (List Nat) :=
  match mac, buffer with
  | some m, some buf => (Ret.buffer, some (snprintf buf 18 (MACSTR (MAC2STR m))))
  | _, _ => (Ret.null, buffer)

/-! ## str2mac -/

/-- The test `(ch < '0' || ch > '9') && (ch < 'a' || ch > 'f')` that
`str2mac` applies to a character. -/
def notHexLower (ch : Nat) : Bool :=
  (decide (ch < 48) || decide (ch > 57)) && (decide (ch < 97) || decide (ch > 102))

/-- The expression `isdigit (ch) ? (ch - '0') : (ch - 'a' + 10)`. -/
def digitValue (ch : Nat) : Nat :=
  if isdigit ch then ch - 48 else ch - 97 + 10

/-- Body of the `for` loop of `str2mac` for group `i`, entered with the read
pointer `p`, up to the store into `macBytes[i]`. The result is `none` when
the body executes `return NULL`; otherwise it is `iNumber` and the read
pointer as they are just before `macBytes[i] = (unsigned char)iNumber`. -/
def str2macBody (i : Nat) (p : List Nat) : Option (Nat × List Nat) :=
  let ch := tolower (peek p)
  let p := p.tail
  if notHexLower ch then none
  else
    let iNumber := digitValue ch
    let ch := tolower (peek p)
    if (decide (i < 5) && ch != 58) || (i == 5 && ch != 0 && !isspace ch) then
      let p := p.tail
      if notHexLower ch then none
      else
        let iNumber := (iNumber <<< 4) + digitValue ch
        let ch := peek p
        if decide (i < 5) && ch != 58 then none
        else some (iNumber, p)
    else some (iNumber, p)

/-- The loop `for (int i = 0; i < 6; ++i)` of `str2mac`, entered at group
`i` with `n = 6 - i` iterations left, the read pointer `p` and the current
contents of the output buffer. After the body, the byte is stored and the
pointer is advanced past the separator. -/
def str2macLoop : Nat → Nat → List Nat → List Nat → Ret × List Nat
  | 0, _, _, macBytes => (Ret.buffer, macBytes)
  | n + 1, i, p, macBytes =>
    match str2macBody i p with
    | none => (Ret.null, macBytes)
    | some (iNumber, p) => str2macLoop n (i + 1) p.tail (macBytes.set i (iNumber % 256))

/-- The function `str2mac (macAddrString, macBytes)`: the returned pointer
and the contents of the six-byte output buffer after the call. -/
def str2mac (macAddrString : List Nat) (macBytes : List Nat) : Ret × List Nat :=
  str2macLoop 6 0 macAddrString macBytes

/-! ## Vocabulary of the specification -/

/-- A hexadecimal digit character, letters in either case: `0-9`, `A-F`,
`a-f`. -/
def isHexDigit (c : Nat) : Bool :=
  (decide (48 ≤ c) && decide (c ≤ 57)) || (decide (65 ≤ c) && decide (c ≤ 70)) ||
    (decide (97 ≤ c) && decide (c ≤ 102))

/-- An uppercase hexadecimal digit character: `0-9`, `A-F`. -/
def isUpperHexDigit (c : Nat) : Bool :=
  (decide (48 ≤ c) && decide (c ≤ 57)) || (decide (65 ≤ c) && decide (c ≤ 70))

/-- Numeric value of a hexadecimal digit character. -/
def hexValue (c : Nat) : Nat :=
  if c ≤ 57 then c - 48 else if c ≤ 70 then c - 55 else c - 87

/-- A group of a MAC string: one or two hexadecimal digits. -/
def IsHexGroup (g : List Nat) : Prop :=
  (g.length = 1 ∨ g.length = 2) ∧ ∀ c ∈ g, isHexDigit c = true

instance (g : List Nat) : Decidable (IsHexGroup g) := by
  unfold IsHexGroup
  infer_instance

/-- Numeric value of a group, read as a hexadecimal number. -/
def groupValue (g : List Nat) : Nat :=
  g.foldl (fun acc c => 16 * acc + hexValue c) 0

/-- The text made of the groups `gs`, each one followed by `':'`, and then
`rest`. -/
def colonGroups (gs : List (List Nat)) (rest : List Nat) : List Nat :=
  gs.foldr (fun g t => g ++ 58 :: t) rest

/-- The input begins with six groups of one or two hexadecimal digits,
consecutive groups separated by exactly one `':'`; `rest` is whatever
follows the sixth group. -/
def BeginsWithSixGroups (s : List Nat) : Prop :=
  ∃ (gs : List (List Nat)) (g5 rest : List Nat), gs.length = 5 ∧ (∀ g ∈ gs, IsHexGroup g) ∧
    IsHexGroup g5 ∧ s = colonGroups gs (g5 ++ rest)

/-- The sixteen uppercase hexadecimal digits, indexed by their value. -/
def upperHexDigits : List Nat :=
  ofString "0123456789ABCDEF"

/-- A valid uppercase MAC string: 17 characters, a `':'` at positions 2, 5,
8, 11 and 14, and a character from `0-9A-F` at every other position. -/
def IsUpperMacString (s : List Nat) : Prop :=
  s.length = 17 ∧
    ∀ j < 17, if j % 3 = 2 then s.getD j 0 = 58 else isUpperHexDigit (s.getD j 0) = true

instance (s : List Nat) : Decidable (IsUpperMacString s) := by
  unfold IsUpperMacString
  infer_instance

/-! ## printHexBuffer -/

/-- The constant `MAX_STR_LEN`, the size of the static buffer `tempStr`. -/
def MAX_STR_LEN : Nat := 1000

/-- State of `printHexBuffer`: the contents of the static buffer `tempStr`,
the variable `charIndex`, and the indices of `tempStr` that have been
written so far, in the order of the writes. -/
structure HexDump where
  tempStr : List Nat
  charIndex : Nat
  writes : List Nat

/-- Store the bytes `text` into `mem` from index `pos` on. -/
def storeAt (mem : List Nat) (pos : Nat) (text : List Nat) : List Nat :=
  mem.take pos ++ text ++ mem.drop (pos + text.length)

/-- The call `sprintf (tempStr + charIndex, "%02X ", b)` together with
`charIndex += ...`: the text is `%02X` of the byte and a space; `sprintf`
stores it with a terminating `0` and returns its length without the
terminator. -/
def sprintfHex (st : HexDump) (b : Nat) : HexDump :=
  let text := fmt02X b ++ [32]
  let stored := text ++ [0]
  { tempStr := storeAt st.tempStr st.charIndex stored
    charIndex := st.charIndex + text.length
    writes := st.writes ++ List.range' st.charIndex stored.length }

/-- The loop `for (int i = 0; i < len; i++)` of `printHexBuffer` over the
bytes `buffer[i]` that remain. -/
def printHexLoop : List Nat → HexDump → HexDump
  | [], st => st
  | b :: rest, st =>
    if st.charIndex < MAX_STR_LEN - 2 then printHexLoop rest (sprintfHex st b)
    else printHexLoop rest st

/-- The run of `printHexBuffer (buffer, len)` on the `len` bytes of `buffer`:
`memset (tempStr, 0, MAX_STR_LEN)`, `charIndex = 0`, then the loop. -/
def printHexBufferRun (buffer : List Nat) : HexDump :=
  printHexLoop buffer
    { tempStr := List.replicate MAX_STR_LEN 0, charIndex := 0, writes := List.range MAX_STR_LEN }

/-- The function `printHexBuffer (buffer, len)`: the contents of `tempStr`,
to which the returned pointer points. -/
def printHexBuffer (buffer : List Nat) : List Nat :=
  (printHexBufferRun buffer).tempStr

/-- The rendering of a byte sequence the specification describes: each byte
as two uppercase hexadecimal digits, high nibble first, followed by one
space. -/
def hexRendering : List Nat → List Nat
  | [] => []
  | b :: bs =>
    upperHexDigits.getD (b / 16) 0 :: upperHexDigits.getD (b % 16) 0 :: 32 :: hexRendering bs

/-! ## The outbound MQTT queue -/

/-- The record `mqtt_queue_item_t` of `GwOutput_mqtt.h`: topic, payload,
payload length and retain flag of a queued message. -/
structure mqtt_queue_item_t where
  topic : List Nat
  payload : List Nat
  payload_len : Nat
  retain : Bool
  deriving DecidableEq, Repr

/-- The member `mqtt_queue` of `GwOutput_MQTT`, a `std::queue` of items: the
front of the queue is the head of the list. -/
abbrev MqttQueue := List mqtt_queue_item_t

/-- Modelled from the spec: the body of `addMQTTqueue` is not in the sources
at hand, only its declaration in `GwOutput_mqtt.h`. The specification says
that enqueue copies topic and payload into freshly owned storage inside the
record and appends the record to the tail, and that it fails when allocation
fails or when a soft cap chosen by the implementation is exceeded, the
producer then keeping ownership. `alloc` tells whether the allocation
succeeds and `cap` is the soft cap. The result is the returned flag and the
queue after the call. -/
def addMQTTqueue (cap : Nat) (alloc : Bool) (q : MqttQueue) (topic payload : List Nat)
    (len : Nat) (retain : Bool) : Bool × MqttQueue :=
  if alloc && decide (q.length < cap) then
    (true, q ++ [{ topic := topic, payload := payload, payload_len := len, retain := retain }])
  else (false, q)

/-- Modelled from the spec: the body of `getMQTTqueue` is not in the sources
at hand, only its declaration. The specification says that peek returns a
view of the head of the queue, or "empty". -/
def getMQTTqueue (q : MqttQueue) : Option mqtt_queue_item_t :=
  q.head?

/-- Modelled from the spec: the body of `popMQTTqueue` is not in the sources
at hand, only its declaration. The specification says that pop removes the
head, and that pop on an empty queue does nothing. -/
def popMQTTqueue (q : MqttQueue) : MqttQueue :=
  q.tail

/-- The arguments of one call of `addMQTTqueue`, with the outcome of its
allocation. -/
structure AddCall where
  topic : List Nat
  payload : List Nat
  len : Nat
  retain : Bool
  alloc : Bool

/-- The values passed to a call, as a record. -/
def AddCall.item (c : AddCall) : mqtt_queue_item_t :=
  { topic := c.topic, payload := c.payload, payload_len := c.len, retain := c.retain }

/-- A sequence of calls of `addMQTTqueue`, one after the other: the queue
at the end and the flags the calls returned. -/
def addCalls (cap : Nat) : MqttQueue → List AddCall → MqttQueue × List Bool
  | q, [] => (q, [])
  | q, c :: cs =>
    let r := addMQTTqueue cap c.alloc q c.topic c.payload c.len c.retain
    let rest := addCalls cap r.2 cs
    (rest.1, r.1 :: rest.2)

/-- Repeated `getMQTTqueue` and `popMQTTqueue`, at most `n` times, until
`getMQTTqueue` finds the queue empty: the records observed, in order, and
the queue that is left. -/
def drainQueue : Nat → MqttQueue → List mqtt_queue_item_t × MqttQueue
  | 0, q => ([], q)
  | n + 1, q =>
    match getMQTTqueue q with
    | none => ([], q)
    | some item =>
      let rest := drainQueue n (popMQTTqueue q)
      (item :: rest.1, rest.2)

/-! ## str2mac with its memory accesses -/

/-- The body of the `for` loop of `str2mac` as in `str2macBody`, on the
memory `s` of the input with the read pointer as an offset `p` from
`macAddrString`; the second component lists the offsets that are read, in
order. -/
def str2macBodyT (i : Nat) (s : List Nat) (p : Nat) : Option (Nat × Nat) × List Nat :=
  let ch := tolower (s.getD p 0)
  let p1 := p + 1
  if notHexLower ch then (none, [p])
  else
    let iNumber := digitValue ch
    let ch := tolower (s.getD p1 0)
    if (decide (i < 5) && ch != 58) || (i == 5 && ch != 0 && !isspace ch) then
      let p2 := p1 + 1
      if notHexLower ch then (none, [p, p1])
      else
        let iNumber := (iNumber <<< 4) + digitValue ch
        let ch := s.getD p2 0
        if decide (i < 5) && ch != 58 then (none, [p, p1, p2])
        else (some (iNumber, p2), [p, p1, p2])
    else (some (iNumber, p1), [p, p1])

/-- A run of `str2mac` with its memory accesses: the returned pointer, the
output buffer, the offsets of the input that were read and the indices of
the output buffer that were written. -/
structure Str2MacTrace where
  ret : Ret
  macBytes : List Nat
  reads : List Nat
  writes : List Nat

/-- The loop of `str2mac` as in `str2macLoop`, recording the accesses. -/
def str2macLoopT : Nat → Nat → List Nat → Nat → Str2MacTrace → Str2MacTrace
  | 0, _, _, _, t => { t with ret := Ret.buffer }
  | n + 1, i, s, p, t =>
    match str2macBodyT i s p with
    | (none, rs) => { t with ret := Ret.null, reads := t.reads ++ rs }
    | (some (iNumber, p), rs) =>
      str2macLoopT n (i + 1) s (p + 1)
        { t with macBytes := t.macBytes.set i (iNumber % 256), reads := t.reads ++ rs,
                 writes := t.writes ++ [i] }

/-- The function `str2mac` with its memory accesses recorded. -/
def str2macT (macAddrString : List Nat) (macBytes : List Nat) : Str2MacTrace :=
  str2macLoopT 6 0 macAddrString 0
    { ret := Ret.buffer, macBytes := macBytes, reads := [], writes := [] }

/-! # Theorems -/

theorem crcBitLoop_zero_mask (fuel c crc : Nat) : crcBitLoop fuel c 0 crc = crc := by
  cases fuel <;> simp [crcBitLoop]

theorem crcBitLoop_eight (c crc : Nat) :
    crcBitLoop 8 c 0x80 crc =
      crcBitStep c 1 (crcBitStep c 2 (crcBitStep c 4 (crcBitStep c 8 (crcBitStep c 16
        (crcBitStep c 32 (crcBitStep c 64 (crcBitStep c 128 crc))))))) := by
  simp [crcBitLoop, Nat.shiftRight_succ, Nat.shiftRight_zero]

theorem crcBitLoop_fuel (n c crc : Nat) :
    crcBitLoop (8 + n) c 0x80 crc = crcBitLoop 8 c 0x80 crc := by
  rw [crcBitLoop_eight]
  have h : 8 + n = n + 1 + 1 + 1 + 1 + 1 + 1 + 1 + 1 := by omega
  rw [h]
  simp [crcBitLoop, crcBitLoop_zero_mask, Nat.shiftRight_succ, Nat.shiftRight_zero]

theorem shl_one_xor_mod (a b : Nat) :
    ((a ^^^ b) <<< 1) % 2 ^ 32 = ((a <<< 1) % 2 ^ 32) ^^^ ((b <<< 1) % 2 ^ 32) := by
  apply Nat.eq_of_testBit_eq
  intro i
  simp only [Nat.testBit_mod_two_pow, Nat.testBit_xor, Nat.testBit_shiftLeft]
  by_cases h : i < 32 <;> by_cases h1 : 1 ≤ i <;> simp [h, h1]

theorem xor_mod_of_lt (a p : Nat) (hp : p < 2 ^ 32) :
    (a ^^^ p) % 2 ^ 32 = (a % 2 ^ 32) ^^^ p := by
  apply Nat.eq_of_testBit_eq
  intro i
  simp only [Nat.testBit_mod_two_pow, Nat.testBit_xor]
  by_cases h : i < 32
  · simp [h]
  · have : p.testBit i = false :=
      Nat.testBit_lt_two_pow (lt_of_lt_of_le hp (Nat.pow_le_pow_right (by norm_num) (by omega)))
    simp [h, this]

theorem and_top_ne_zero (crc : Nat) : ((crc &&& 0x80000000) != 0) = crc.testBit 31 := by
  have hbit : ∀ i, (crc &&& 0x80000000).testBit i = (crc.testBit i && decide (31 = i)) := by
    intro i
    have h : (0x80000000 : Nat) = 2 ^ 31 := by norm_num
    rw [h, Nat.testBit_and, Nat.testBit_two_pow]
  cases hb : crc.testBit 31
  · have h0 : crc &&& 0x80000000 = 0 := by
      apply Nat.eq_of_testBit_eq
      intro i
      rw [hbit, Nat.zero_testBit]
      by_cases hi : 31 = i
      · subst hi; simp [hb]
      · simp [hi]
    rw [h0]; rfl
  · have h1 : (crc &&& 0x80000000).testBit 31 = true := by
      rw [hbit, hb]; rfl
    have hne : crc &&& 0x80000000 ≠ 0 := by
      intro h0
      rw [h0, Nat.zero_testBit] at h1
      exact Bool.noConfusion h1
    simpa using hne

set_option maxRecDepth 100000 in
theorem byte_mask_bit : ∀ k < 8, ∀ b < 256,
    ((b &&& (0x80 >>> k)) != 0) = Nat.testBit ((b <<< (24 + k)) % 2 ^ 32) 31 := by
  decide

set_option maxRecDepth 100000 in
theorem byte_shift_next : ∀ k < 8, ∀ b < 256,
    (((b <<< (24 + k)) % 2 ^ 32) <<< 1) % 2 ^ 32 = (b <<< (24 + (k + 1))) % 2 ^ 32 := by
  decide

theorem refShift_xor_byte (crc b k : Nat) (hb : b < 256) (hk : k < 8) :
    refShift (crc ^^^ ((b <<< (24 + k)) % 2 ^ 32)) =
      crcBitStep b (0x80 >>> k) crc ^^^ ((b <<< (24 + (k + 1))) % 2 ^ 32) := by
  have hm := byte_mask_bit k hk b hb
  have hs := byte_shift_next k hk b hb
  unfold refShift crcBitStep
  simp only [and_top_ne_zero, hm, Nat.testBit_xor, shl_one_xor_mod, hs,
    xor_mod_of_lt _ 0x04C11DB7 (by norm_num)]
  cases crc.testBit 31 <;> cases Nat.testBit ((b <<< (24 + k)) % 2 ^ 32) 31 <;>
    simp only [Bool.xor_false, Bool.xor_true, Bool.not_false, Bool.not_true, Bool.false_eq_true,
      if_true, if_false, Bool.true_bne, Bool.false_bne, Bool.bne_true, Bool.bne_false] <;>
    ac_rfl

theorem refByte_eq_crcBitLoop (crc b : Nat) (hb : b < 256) :
    refByte crc b = crcBitLoop 8 b 0x80 crc := by
  have h0 : b <<< 24 = (b <<< (24 + 0)) % 2 ^ 32 := by
    rw [Nat.add_zero, Nat.shiftLeft_eq, Nat.mod_eq_of_lt]
    omega
  have h8 : (b <<< (24 + (7 + 1))) % 2 ^ 32 = 0 := by
    rw [Nat.shiftLeft_eq]
    have : b * 2 ^ (24 + (7 + 1)) = 2 ^ 32 * b := by ring
    rw [this, Nat.mul_mod_right]
  have s := fun crc k hk => refShift_xor_byte crc b k hb hk
  rw [crcBitLoop_eight]
  unfold refByte
  simp only [Function.iterate_succ, Function.iterate_zero, Function.comp_apply, id_eq]
  rw [h0, s _ 0 (by omega), s _ 1 (by omega), s _ 2 (by omega), s _ 3 (by omega),
    s _ 4 (by omega), s _ 5 (by omega), s _ 6 (by omega), s _ 7 (by omega), h8, Nat.xor_zero]
  rfl

theorem crcLoop_eq_foldl (d : List Nat) (hd : ∀ b ∈ d, b < 256) (crc : Nat) :
    crcLoop d crc = d.foldl refByte crc := by
  induction d generalizing crc with
  | nil => rfl
  | cons c d ih =>
    have hc : c < 256 := hd c (List.mem_cons_self _ _)
    rw [crcLoop, List.foldl_cons, refByte_eq_crcBitLoop crc c hc]
    exact ih (fun b hb => hd b (List.mem_cons_of_mem _ hb)) _

/-! ## Characters -/

theorem isHexDigit_lt (c : Nat) (h : isHexDigit c = true) : c < 103 := by
  simp only [isHexDigit, Bool.or_eq_true, Bool.and_eq_true, decide_eq_true_eq] at h
  omega

set_option maxRecDepth 100000 in
theorem hexDigit_facts_bounded : ∀ c < 103, isHexDigit c = true →
    notHexLower (tolower c) = false ∧ digitValue (tolower c) = hexValue c ∧ hexValue c < 16 ∧
      tolower c ≠ 58 ∧ tolower c ≠ 0 ∧ isspace (tolower c) = false ∧ c ≠ 0 ∧ c ≠ 58 := by
  decide

theorem hexDigit_facts (c : Nat) (h : isHexDigit c = true) :
    notHexLower (tolower c) = false ∧ digitValue (tolower c) = hexValue c ∧ hexValue c < 16 ∧
      tolower c ≠ 58 ∧ tolower c ≠ 0 ∧ isspace (tolower c) = false ∧ c ≠ 0 ∧ c ≠ 58 :=
  hexDigit_facts_bounded c (isHexDigit_lt c h) h

set_option maxRecDepth 100000 in
theorem isHexDigit_of_lower_bounded : ∀ c < 103, notHexLower (tolower c) = false →
    isHexDigit c = true := by
  decide

theorem isHexDigit_of_lower (c : Nat) (h : notHexLower (tolower c) = false) :
    isHexDigit c = true := by
  by_cases hc : c < 103
  · exact isHexDigit_of_lower_bounded c hc h
  · exfalso
    have ht : tolower c = c := by
      unfold tolower
      rw [if_neg]
      omega
    rw [ht] at h
    simp only [notHexLower, Bool.and_eq_false_iff, Bool.or_eq_false_iff,
      decide_eq_false_iff_not] at h
    omega

theorem tolower_eq_colon (c : Nat) (h : tolower c = 58) : c = 58 := by
  unfold tolower at h
  split at h <;> omega

theorem tolower_colon : tolower 58 = 58 := by decide

theorem tolower_zero : tolower 0 = 0 := by decide

theorem tolower_of_isspace (c : Nat) (h : isspace c = true) : tolower c = c := by
  unfold tolower
  rw [if_neg]
  simp only [isspace, Bool.or_eq_true, Bool.and_eq_true, decide_eq_true_eq, beq_iff_eq] at h
  omega

/-! ## One group of str2mac -/

theorem groupValue_one (d : Nat) : groupValue [d] = hexValue d := by
  simp [groupValue]

theorem groupValue_two (d e : Nat) : groupValue [d, e] = (hexValue d <<< 4) + hexValue e := by
  simp [groupValue, Nat.shiftLeft_eq]
  omega

theorem IsHexGroup.cases {g : List Nat} (h : IsHexGroup g) :
    (∃ d, g = [d] ∧ isHexDigit d = true) ∨
      (∃ d e, g = [d, e] ∧ isHexDigit d = true ∧ isHexDigit e = true) := by
  obtain ⟨hl, hc⟩ := h
  match g, hl, hc with
  | [d], _, hc => exact Or.inl ⟨d, rfl, hc d (by simp)⟩
  | [d, e], _, hc => exact Or.inr ⟨d, e, rfl, hc d (by simp), hc e (by simp)⟩
  | [], hl, _ => simp at hl
  | _ :: _ :: _ :: _, hl, _ => simp at hl

theorem groupValue_lt {g : List Nat} (h : IsHexGroup g) : groupValue g < 256 := by
  rcases h.cases with ⟨d, rfl, hd⟩ | ⟨d, e, rfl, hd, he⟩
  · rw [groupValue_one]
    have := (hexDigit_facts d hd).2.2.1
    omega
  · rw [groupValue_two, Nat.shiftLeft_eq]
    have := (hexDigit_facts d hd).2.2.1
    have := (hexDigit_facts e he).2.2.1
    omega

/-- A group followed by `':'` is accepted by the body for each of the first
five groups. -/
theorem str2macBody_group_colon (i : Nat) (hi : i < 5) (g t : List Nat) (hg : IsHexGroup g) :
    str2macBody i (g ++ 58 :: t) = some (groupValue g, 58 :: t) := by
  rcases hg.cases with ⟨d, rfl, hd⟩ | ⟨d, e, rfl, hd, he⟩
  · obtain ⟨h1, h2, -⟩ := hexDigit_facts d hd
    have h5 : i ≠ 5 := by omega
    simp [str2macBody, peek, h1, h2, tolower_colon, groupValue_one, h5]
  · obtain ⟨h1, h2, -⟩ := hexDigit_facts d hd
    obtain ⟨k1, k2, -, k4, -⟩ := hexDigit_facts e he
    simp [str2macBody, peek, h1, h2, k1, k2, k4, hi, groupValue_two]

/-- A two-digit sixth group is accepted whatever follows it. -/
theorem str2macBody_last_two (d e : Nat) (rest : List Nat) (hd : isHexDigit d = true)
    (he : isHexDigit e = true) :
    str2macBody 5 (d :: e :: rest) = some (groupValue [d, e], rest) := by
  obtain ⟨h1, h2, -⟩ := hexDigit_facts d hd
  obtain ⟨k1, k2, -, -, k5, k6, -⟩ := hexDigit_facts e he
  simp [str2macBody, peek, h1, h2, k1, k2, k5, k6, groupValue_two]

/-- A sixth group followed by the terminator or by white space is accepted. -/
theorem str2macBody_last (g rest : List Nat) (hg : IsHexGroup g)
    (hend : peek rest = 0 ∨ isspace (peek rest) = true) :
    str2macBody 5 (g ++ rest) = some (groupValue g, rest) := by
  rcases hg.cases with ⟨d, rfl, hd⟩ | ⟨d, e, rfl, hd, he⟩
  · obtain ⟨h1, h2, -⟩ := hexDigit_facts d hd
    have hcond : (tolower (peek rest) != 0 && !isspace (tolower (peek rest))) = false := by
      rcases hend with h0 | hs
      · rw [h0, tolower_zero]; rfl
      · rw [tolower_of_isspace _ hs, hs]; simp
    simp [str2macBody, h1, h2, hcond, groupValue_one]
    simp [peek, h1, h2]
  · exact str2macBody_last_two d e rest hd he


/-- What the body accepted, for one of the first five groups: a group and
the `':'` after it. -/
theorem str2macBody_inv_colon (i : Nat) (hi : i < 5) (p p2 : List Nat) (v : Nat)
    (h : str2macBody i p = some (v, p2)) :
    ∃ g t, IsHexGroup g ∧ p = g ++ 58 :: t ∧ p2 = 58 :: t ∧ v = groupValue g := by
  have h5 : (i == 5) = false := by simp; omega
  unfold str2macBody at h
  simp only [hi, h5, decide_True, Bool.true_and, Bool.false_and, Bool.or_false] at h
  split at h
  · exact Option.noConfusion h
  · rename_i hc
    have hc1 : notHexLower (tolower (peek p)) = false := by simpa using hc
    have hd := isHexDigit_of_lower _ hc1
    obtain ⟨-, hv, -, -, -, -, hne0, -⟩ := hexDigit_facts _ hd
    cases p with
    | nil => exact absurd rfl hne0
    | cons d p1 =>
      simp only [peek, List.headD_cons, List.tail_cons] at h hd hv
      split at h
      · split at h
        · exact Option.noConfusion h
        · rename_i he
          have he1 : notHexLower (tolower (p1.headD 0)) = false := by simpa using he
          have hde := isHexDigit_of_lower _ he1
          obtain ⟨-, hw, -, -, -, -, hne0, -⟩ := hexDigit_facts _ hde
          cases p1 with
          | nil => exact absurd rfl hne0
          | cons e p3 =>
            simp only [List.headD_cons, List.tail_cons] at h hde hw
            split at h
            · exact Option.noConfusion h
            · rename_i hsep
              have hsep1 : p3.headD 0 = 58 := by simpa using hsep
              cases p3 with
              | nil => simp at hsep1
              | cons c t =>
                simp only [List.headD_cons] at hsep1
                subst hsep1
                simp only [Option.some.injEq, Prod.mk.injEq] at h
                obtain ⟨rfl, rfl⟩ := h
                refine ⟨[d, e], t, ⟨Or.inr rfl, ?_⟩, rfl, rfl, ?_⟩
                · intro c hcm
                  simp only [List.mem_cons, List.mem_singleton, List.not_mem_nil, or_false] at hcm
                  rcases hcm with rfl | rfl
                  · exact hd
                  · exact hde
                · rw [groupValue_two, hv, hw]
      · rename_i hsep
        have hsep1 : tolower (p1.headD 0) = 58 := by simpa using hsep
        have hsep2 := tolower_eq_colon _ hsep1
        cases p1 with
        | nil => simp at hsep2
        | cons c t =>
          simp only [List.headD_cons] at hsep2
          subst hsep2
          simp only [Option.some.injEq, Prod.mk.injEq] at h
          obtain ⟨rfl, rfl⟩ := h
          refine ⟨[d], t, ⟨Or.inl rfl, ?_⟩, rfl, rfl, ?_⟩
          · intro c hcm
            simp only [List.mem_singleton] at hcm
            subst hcm
            exact hd
          · rw [groupValue_one, hv]

/-- What the body accepted for the sixth group: a group, and whatever
follows it. -/
theorem str2macBody_inv_last (p p2 : List Nat) (v : Nat)
    (h : str2macBody 5 p = some (v, p2)) :
    ∃ g, IsHexGroup g ∧ p = g ++ p2 ∧ v = groupValue g := by
  unfold str2macBody at h
  simp only [show decide (5 < 5) = false from rfl, Bool.false_and, Bool.false_or,
    beq_self_eq_true, Bool.true_and, Bool.false_eq_true, if_false] at h
  split at h
  · exact Option.noConfusion h
  · rename_i hc
    have hc1 : notHexLower (tolower (peek p)) = false := by simpa using hc
    have hd := isHexDigit_of_lower _ hc1
    obtain ⟨-, hv, -, -, -, -, hne0, -⟩ := hexDigit_facts _ hd
    cases p with
    | nil => exact absurd rfl hne0
    | cons d p1 =>
      simp only [peek, List.headD_cons, List.tail_cons] at h hd hv
      split at h
      · split at h
        · exact Option.noConfusion h
        · rename_i he
          have he1 : notHexLower (tolower (p1.headD 0)) = false := by simpa using he
          have hde := isHexDigit_of_lower _ he1
          obtain ⟨-, hw, -, -, -, -, hne0, -⟩ := hexDigit_facts _ hde
          cases p1 with
          | nil => exact absurd rfl hne0
          | cons e p3 =>
            simp only [List.headD_cons, List.tail_cons] at h hde hw
            simp only [Option.some.injEq, Prod.mk.injEq] at h
            obtain ⟨rfl, rfl⟩ := h
            refine ⟨[d, e], ⟨Or.inr rfl, ?_⟩, rfl, ?_⟩
            · intro c hcm
              simp only [List.mem_cons, List.mem_singleton, List.not_mem_nil, or_false] at hcm
              rcases hcm with rfl | rfl
              · exact hd
              · exact hde
            · rw [groupValue_two, hv, hw]
      · simp only [Option.some.injEq, Prod.mk.injEq] at h
        obtain ⟨rfl, rfl⟩ := h
        refine ⟨[d], ⟨Or.inl rfl, ?_⟩, rfl, ?_⟩
        · intro c hcm
          simp only [List.mem_singleton] at hcm
          subst hcm
          exact hd
        · rw [groupValue_one, hv]

/-! ## The loop of str2mac -/

theorem set_take_drop (buf vals : List Nat) (i v k : Nat) (hi : i < buf.length)
    (hk : vals.length = k) :
    (buf.set i v).take (i + 1) ++ vals ++ (buf.set i v).drop (i + 1 + k) =
      buf.take i ++ (v :: vals) ++ buf.drop (i + (k + 1)) := by
  have h1 : (buf.set i v).take (i + 1) = buf.take i ++ [v] := by
    rw [List.take_succ, List.set_take, List.set_eq_of_length_le (by simp)]
    simp [hi]
  have h2 : (buf.set i v).drop (i + 1 + k) = buf.drop (i + (k + 1)) := by
    rw [List.drop_set_of_lt v buf (by omega)]
    congr 1
    omega
  rw [h1, h2]
  simp

theorem str2macLoop_colonGroups (gs : List (List Nat)) (hgs : ∀ g ∈ gs, IsHexGroup g) :
    ∀ (n i : Nat) (tl buf : List Nat), i + gs.length ≤ 5 → i + gs.length ≤ buf.length →
      str2macLoop (gs.length + n) i (colonGroups gs tl) buf =
        str2macLoop n (i + gs.length) tl
          (buf.take i ++ gs.map groupValue ++ buf.drop (i + gs.length)) := by
  induction gs with
  | nil =>
    intro n i tl buf _ _
    simp [colonGroups]
  | cons g gs ih =>
    intro n i tl buf hi hb
    have hg : IsHexGroup g := hgs g (List.mem_cons_self _ _)
    have hgs2 : ∀ g2 ∈ gs, IsHexGroup g2 := fun g2 h => hgs g2 (List.mem_cons_of_mem _ h)
    simp only [List.length_cons] at hi hb
    have hn : (g :: gs).length + n = (gs.length + n) + 1 := by
      simp only [List.length_cons]; omega
    have hc : colonGroups (g :: gs) tl = g ++ 58 :: colonGroups gs tl := rfl
    rw [hn, hc, str2macLoop, str2macBody_group_colon i (by omega) g _ hg]
    simp only [List.tail_cons, Nat.mod_eq_of_lt (groupValue_lt hg)]
    rw [ih hgs2 n (i + 1) tl _ (by omega) (by rw [List.length_set]; omega)]
    rw [set_take_drop buf (gs.map groupValue) i (groupValue g) gs.length (by omega) (by simp)]
    simp only [List.map_cons, List.length_cons]
    congr 1
    omega

theorem str2macLoop_null : ∀ (n i : Nat) (p buf out : List Nat), i + n = 6 → buf.length = 6 →
    str2macLoop n i p buf = (Ret.null, out) →
    ∃ gs rest, gs.length < n ∧ (∀ g ∈ gs, IsHexGroup g) ∧ p = colonGroups gs rest ∧
      str2macBody (i + gs.length) rest = none ∧
      out = buf.take i ++ gs.map groupValue ++ buf.drop (i + gs.length) := by
  intro n
  induction n with
  | zero =>
    intro i p buf out _ _ h
    simp [str2macLoop] at h
  | succ n ih =>
    intro i p buf out hin hbuf h
    rw [str2macLoop] at h
    cases hb : str2macBody i p with
    | none =>
      rw [hb] at h
      simp only [Prod.mk.injEq, true_and] at h
      subst h
      exact ⟨[], p, by simp, by simp, rfl, by simpa using hb, by simp⟩
    | some r =>
      obtain ⟨v, p2⟩ := r
      rw [hb] at h
      simp only at h
      by_cases hi : i < 5
      · obtain ⟨g, t, hg, rfl, rfl, rfl⟩ := str2macBody_inv_colon i hi p p2 v hb
        rw [List.tail_cons, Nat.mod_eq_of_lt (groupValue_lt hg)] at h
        obtain ⟨gs, rest, hlen, hgs, rfl, hnone, hout⟩ :=
          ih (i + 1) t _ out (by omega) (by rw [List.length_set]; exact hbuf) h
        refine ⟨g :: gs, rest, by simp; omega, ?_, rfl, ?_, ?_⟩
        · intro g2 hg2
          rcases List.mem_cons.mp hg2 with rfl | h2
          · exact hg
          · exact hgs g2 h2
        · rw [List.length_cons, ← hnone]
          congr 1
          omega
        · rw [hout,
            set_take_drop buf (gs.map groupValue) i (groupValue g) gs.length (by omega) (by simp)]
          simp only [List.map_cons, List.length_cons]
      · have hn0 : n = 0 := by omega
        subst hn0
        simp [str2macLoop] at h

theorem str2macLoop_buffer : ∀ (n i : Nat) (p buf out : List Nat), i + (n + 1) = 6 →
    str2macLoop (n + 1) i p buf = (Ret.buffer, out) →
    ∃ gs g rest, gs.length = n ∧ (∀ g2 ∈ gs, IsHexGroup g2) ∧ IsHexGroup g ∧
      p = colonGroups gs (g ++ rest) := by
  intro n
  induction n with
  | zero =>
    intro i p buf out hin h
    rw [str2macLoop] at h
    cases hb : str2macBody i p with
    | none =>
      rw [hb] at h
      simp at h
    | some r =>
      obtain ⟨v, p2⟩ := r
      have hi : i = 5 := by omega
      subst hi
      obtain ⟨g, hg, rfl, -⟩ := str2macBody_inv_last p p2 v hb
      exact ⟨[], g, p2, rfl, by simp, hg, rfl⟩
  | succ n ih =>
    intro i p buf out hin h
    rw [str2macLoop] at h
    cases hb : str2macBody i p with
    | none =>
      rw [hb] at h
      simp at h
    | some r =>
      obtain ⟨v, p2⟩ := r
      rw [hb] at h
      simp only at h
      obtain ⟨g, t, hg, rfl, rfl, rfl⟩ := str2macBody_inv_colon i (by omega) p p2 v hb
      rw [List.tail_cons] at h
      obtain ⟨gs, g5, rest, hlen, hgs, hg5, rfl⟩ := ih (i + 1) t _ out (by omega) h
      refine ⟨g :: gs, g5, rest, by simp [hlen], ?_, hg5, rfl⟩
      intro g2 hg2
      rcases List.mem_cons.mp hg2 with rfl | h2
      · exact hg
      · exact hgs g2 h2

/-- Six well-formed groups, the sixth one accepted by the loop body, make
`str2mac` succeed with the six group values. -/
theorem str2mac_six_groups (gs : List (List Nat)) (g5 rest macBytes : List Nat)
    (hlen : gs.length = 5) (hgs : ∀ g ∈ gs, IsHexGroup g) (hg5 : IsHexGroup g5)
    (hlast : str2macBody 5 (g5 ++ rest) = some (groupValue g5, rest))
    (hbuf : macBytes.length = 6) :
    str2mac (colonGroups gs (g5 ++ rest)) macBytes =
      (Ret.buffer, gs.map groupValue ++ [groupValue g5]) := by
  have h := str2macLoop_colonGroups gs hgs 1 0 (g5 ++ rest) macBytes (by omega) (by omega)
  rw [hlen] at h
  have hd : List.drop 5 macBytes = [macBytes.getD 5 0] := by
    apply List.ext_getElem
    · simp [hbuf]
    · intro j h1 h2
      simp only [List.length_singleton] at h2
      have hj : j = 0 := by omega
      subst hj
      simp [List.getD_eq_getElem?_getD]
      rw [List.getElem?_eq_getElem (by omega)]
      rfl
  unfold str2mac
  rw [show (6 : Nat) = 5 + 1 from rfl, h, str2macLoop, hlast]
  simp only [str2macLoop, List.take_zero, List.nil_append, Nat.zero_add, hd,
    Nat.mod_eq_of_lt (groupValue_lt hg5)]
  congr 1
  have hl : (gs.map groupValue).length = 5 := by simp [hlen]
  rw [List.set_append_right _ _ (by omega), hl]
  rfl

/-! ## mac2str -/

set_option maxRecDepth 100000 in
theorem fmt02X_byte : ∀ b < 256, fmt02X b = [hexDigitUpper (b / 16), hexDigitUpper (b % 16)] := by
  decide

set_option maxRecDepth 100000 in
theorem byte_group_facts : ∀ b < 256,
    IsHexGroup [hexDigitUpper (b / 16), hexDigitUpper (b % 16)] ∧
      groupValue [hexDigitUpper (b / 16), hexDigitUpper (b % 16)] = b := by
  decide

set_option maxRecDepth 100000 in
theorem upperHexDigits_getD : ∀ d < 16, upperHexDigits.getD d 0 = hexDigitUpper d := by
  decide

theorem hexDigitUpper_ne_zero (d : Nat) : (hexDigitUpper d != 0) = true := by
  unfold hexDigitUpper
  split <;> simp

theorem exists_cons_of_length {l : List Nat} {n : Nat} (h : l.length = n + 1) :
    ∃ a t, l = a :: t ∧ t.length = n := by
  cases l with
  | nil => simp at h
  | cons a t => exact ⟨a, t, rfl, by simpa using h⟩

theorem length_six {l : List Nat} (h : l.length = 6) :
    ∃ a b c d e f, l = [a, b, c, d, e, f] := by
  obtain ⟨a, l1, rfl, h1⟩ := exists_cons_of_length h
  obtain ⟨b, l2, rfl, h2⟩ := exists_cons_of_length h1
  obtain ⟨c, l3, rfl, h3⟩ := exists_cons_of_length h2
  obtain ⟨d, l4, rfl, h4⟩ := exists_cons_of_length h3
  obtain ⟨e, l5, rfl, h5⟩ := exists_cons_of_length h4
  obtain ⟨f, l6, rfl, h6⟩ := exists_cons_of_length h5
  have : l6 = [] := List.length_eq_zero.mp h6
  subst this
  exact ⟨a, b, c, d, e, f, rfl⟩

/-- The buffer after a successful `mac2str`: seventeen characters, the
terminator, and the old contents from index 18 on. -/
theorem mac2str_six (a b c d e f : Nat) (buf : List Nat) (ha : a < 256) (hb : b < 256)
    (hc : c < 256) (hd : d < 256) (he : e < 256) (hf : f < 256) :
    mac2str (some [a, b, c, d, e, f]) (some buf) =
      (Ret.buffer, some ([hexDigitUpper (a / 16), hexDigitUpper (a % 16), 58,
        hexDigitUpper (b / 16), hexDigitUpper (b % 16), 58,
        hexDigitUpper (c / 16), hexDigitUpper (c % 16), 58,
        hexDigitUpper (d / 16), hexDigitUpper (d % 16), 58,
        hexDigitUpper (e / 16), hexDigitUpper (e % 16), 58,
        hexDigitUpper (f / 16), hexDigitUpper (f % 16), 0] ++ buf.drop 18)) := by
  simp [mac2str, MAC2STR, MACSTR, snprintf, fmt02X_byte a ha, fmt02X_byte b hb,
    fmt02X_byte c hc, fmt02X_byte d hd, fmt02X_byte e he, fmt02X_byte f hf]

theorem cstr_seventeen (c0 c1 c2 c3 c4 c5 c6 c7 c8 c9 c10 c11 c12 c13 c14 c15 c16 : Nat)
    (rest : List Nat)
    (h : ∀ c ∈ [c0, c1, c2, c3, c4, c5, c6, c7, c8, c9, c10, c11, c12, c13, c14, c15, c16],
      (c != 0) = true) :
    cstr ([c0, c1, c2, c3, c4, c5, c6, c7, c8, c9, c10, c11, c12, c13, c14, c15, c16, 0] ++ rest) =
      [c0, c1, c2, c3, c4, c5, c6, c7, c8, c9, c10, c11, c12, c13, c14, c15, c16] := by
  simp only [List.mem_cons, List.mem_singleton, List.not_mem_nil, or_false, forall_eq_or_imp,
    forall_eq] at h
  obtain ⟨h0, h1, h2, h3, h4, h5, h6, h7, h8, h9, h10, h11, h12, h13, h14, h15, h16⟩ := h
  simp [cstr, List.takeWhile_cons, h0, h1, h2, h3, h4, h5, h6, h7, h8, h9, h10, h11, h12,
    h13, h14, h15, h16]

set_option maxRecDepth 100000 in
theorem upperHexDigit_facts_bounded : ∀ c < 71, isUpperHexDigit c = true →
    isHexDigit c = true ∧ hexValue c < 16 ∧ hexDigitUpper (hexValue c) = c ∧ (c != 0) = true := by
  decide

theorem upperHexDigit_facts (c : Nat) (h : isUpperHexDigit c = true) :
    isHexDigit c = true ∧ hexValue c < 16 ∧ hexDigitUpper (hexValue c) = c ∧ (c != 0) = true := by
  have hc : c < 71 := by
    simp only [isUpperHexDigit, Bool.or_eq_true, Bool.and_eq_true, decide_eq_true_eq] at h
    omega
  exact upperHexDigit_facts_bounded c hc h

/-- A pair of uppercase hexadecimal digits is a group whose value is a byte
that prints back as the same pair. -/
theorem upper_pair_facts (a b : Nat) (ha : isUpperHexDigit a = true)
    (hb : isUpperHexDigit b = true) :
    IsHexGroup [a, b] ∧ groupValue [a, b] < 256 ∧
      hexDigitUpper (groupValue [a, b] / 16) = a ∧ hexDigitUpper (groupValue [a, b] % 16) = b := by
  obtain ⟨a1, a2, a3, -⟩ := upperHexDigit_facts a ha
  obtain ⟨b1, b2, b3, -⟩ := upperHexDigit_facts b hb
  have hv : groupValue [a, b] = 16 * hexValue a + hexValue b := by
    rw [groupValue_two, Nat.shiftLeft_eq]
    omega
  have hq : (16 * hexValue a + hexValue b) / 16 = hexValue a := by omega
  have hr : (16 * hexValue a + hexValue b) % 16 = hexValue b := by omega
  refine ⟨⟨Or.inr rfl, ?_⟩, ?_, ?_, ?_⟩
  · intro c hc
    simp only [List.mem_cons, List.mem_singleton, List.not_mem_nil, or_false] at hc
    rcases hc with rfl | rfl
    · exact a1
    · exact b1
  · rw [hv]; omega
  · rw [hv, hq, a3]
  · rw [hv, hr, b3]

theorem length_seventeen {l : List Nat} (h : l.length = 17) :
    ∃ c0 c1 c2 c3 c4 c5 c6 c7 c8 c9 c10 c11 c12 c13 c14 c15 c16,
      l = [c0, c1, c2, c3, c4, c5, c6, c7, c8, c9, c10, c11, c12, c13, c14, c15, c16] := by
  obtain ⟨c0, l0, rfl, h0⟩ := exists_cons_of_length h
  obtain ⟨c1, l1, rfl, h1⟩ := exists_cons_of_length h0
  obtain ⟨c2, l2, rfl, h2⟩ := exists_cons_of_length h1
  obtain ⟨c3, l3, rfl, h3⟩ := exists_cons_of_length h2
  obtain ⟨c4, l4, rfl, h4⟩ := exists_cons_of_length h3
  obtain ⟨c5, l5, rfl, h5⟩ := exists_cons_of_length h4
  obtain ⟨c6, l6, rfl, h6⟩ := exists_cons_of_length h5
  obtain ⟨c7, l7, rfl, h7⟩ := exists_cons_of_length h6
  obtain ⟨c8, l8, rfl, h8⟩ := exists_cons_of_length h7
  obtain ⟨c9, l9, rfl, h9⟩ := exists_cons_of_length h8
  obtain ⟨c10, l10, rfl, h10⟩ := exists_cons_of_length h9
  obtain ⟨c11, l11, rfl, h11⟩ := exists_cons_of_length h10
  obtain ⟨c12, l12, rfl, h12⟩ := exists_cons_of_length h11
  obtain ⟨c13, l13, rfl, h13⟩ := exists_cons_of_length h12
  obtain ⟨c14, l14, rfl, h14⟩ := exists_cons_of_length h13
  obtain ⟨c15, l15, rfl, h15⟩ := exists_cons_of_length h14
  obtain ⟨c16, l16, rfl, h16⟩ := exists_cons_of_length h15
  have : l16 = [] := List.length_eq_zero.mp h16
  subst this
  exact ⟨c0, c1, c2, c3, c4, c5, c6, c7, c8, c9, c10, c11, c12, c13, c14, c15, c16, rfl⟩

/-! ## More about calculateCRC32 -/

theorem crcLoop_append (a b : List Nat) (crc : Nat) :
    crcLoop (a ++ b) crc = crcLoop b (crcLoop a crc) := by
  induction a generalizing crc with
  | nil => rfl
  | cons c a ih => exact ih _

theorem crcBitStep_lt (c i crc : Nat) : crcBitStep c i crc < 2 ^ 32 := by
  have hm : (crc <<< 1) % 2 ^ 32 < 2 ^ 32 := Nat.mod_lt _ (by norm_num)
  have key : ∀ bit : Bool,
      (if bit then (crc <<< 1) % 2 ^ 32 ^^^ 0x04c11db7 else (crc <<< 1) % 2 ^ 32) < 2 ^ 32 := by
    intro bit
    cases bit
    · exact hm
    · exact Nat.xor_lt_two_pow hm (by norm_num)
  exact key _

theorem crcBitLoop_eight_lt (c crc : Nat) : crcBitLoop 8 c 0x80 crc < 2 ^ 32 := by
  rw [crcBitLoop_eight]
  exact crcBitStep_lt _ _ _

theorem crcLoop_lt (d : List Nat) (crc : Nat) (h : crc < 2 ^ 32) : crcLoop d crc < 2 ^ 32 := by
  induction d generalizing crc with
  | nil => exact h
  | cons c d ih => exact ih _ (crcBitLoop_eight_lt c crc)

theorem calculateCRC32_lt (d : List Nat) : calculateCRC32 d < 2 ^ 32 :=
  crcLoop_lt d _ (by norm_num)

theorem refShift_small (x : Nat) (h : x < 2 ^ 31) : refShift x = 2 * x := by
  unfold refShift
  rw [Nat.testBit_lt_two_pow h]
  simp only [Bool.false_eq_true, if_false, Nat.shiftLeft_eq]
  omega

theorem xor_top_byte (r : Nat) : r ^^^ ((r >>> 24) <<< 24) = r % 2 ^ 24 := by
  apply Nat.eq_of_testBit_eq
  intro i
  simp only [Nat.testBit_xor, Nat.testBit_shiftLeft, Nat.testBit_shiftRight,
    Nat.testBit_mod_two_pow]
  by_cases h : i < 24
  · have h2 : ¬ 24 ≤ i := by omega
    simp [h, h2]
  · have h2 : 24 ≤ i := by omega
    have h3 : 24 + (i - 24) = i := by omega
    simp [h, h2, h3]

/-- Feeding the top byte of the register shifts the register left by eight
bits. -/
theorem refByte_top (r : Nat) : refByte r (r >>> 24) = (r <<< 8) % 2 ^ 32 := by
  unfold refByte
  rw [xor_top_byte]
  simp only [Function.iterate_succ, Function.iterate_zero, Function.comp_apply, id_eq]
  obtain ⟨x, hx⟩ : ∃ x, x = r % 2 ^ 24 := ⟨_, rfl⟩
  have h0 : x < 16777216 := by rw [hx]; exact Nat.mod_lt _ (by norm_num)
  rw [← hx, refShift_small x (by omega), refShift_small (2 * x) (by omega),
    refShift_small (2 * (2 * x)) (by omega), refShift_small (2 * (2 * (2 * x))) (by omega),
    refShift_small (2 * (2 * (2 * (2 * x)))) (by omega),
    refShift_small (2 * (2 * (2 * (2 * (2 * x))))) (by omega),
    refShift_small (2 * (2 * (2 * (2 * (2 * (2 * x)))))) (by omega),
    refShift_small (2 * (2 * (2 * (2 * (2 * (2 * (2 * x))))))) (by omega), Nat.shiftLeft_eq]
  omega

/-- The four bytes of a 32-bit value, most significant first, bring the
register that holds this value to zero. -/
theorem refByte_own_bytes (c : Nat) :
    [c >>> 24, (c >>> 16) &&& 0xFF, (c >>> 8) &&& 0xFF, c &&& 0xFF].foldl refByte c = 0 := by
  have hff : ∀ x : Nat, x &&& 0xFF = x % 2 ^ 8 := fun x => Nat.and_pow_two_sub_one_eq_mod x 8
  have e1 : (c >>> 16) &&& 0xFF = ((c <<< 8) % 2 ^ 32) >>> 24 := by
    rw [hff]
    simp only [Nat.shiftRight_eq_div_pow, Nat.shiftLeft_eq]
    omega
  have e2 : (c >>> 8) &&& 0xFF = ((((c <<< 8) % 2 ^ 32) <<< 8) % 2 ^ 32) >>> 24 := by
    rw [hff]
    simp only [Nat.shiftRight_eq_div_pow, Nat.shiftLeft_eq]
    omega
  have e3 : c &&& 0xFF = ((((((c <<< 8) % 2 ^ 32) <<< 8) % 2 ^ 32) <<< 8) % 2 ^ 32) >>> 24 := by
    rw [hff]
    simp only [Nat.shiftRight_eq_div_pow, Nat.shiftLeft_eq]
    omega
  simp only [List.foldl_cons, List.foldl_nil]
  rw [refByte_top, e1, refByte_top, e2, refByte_top, e3, refByte_top]
  simp only [Nat.shiftLeft_eq]
  omega

theorem own_bytes_lt (c : Nat) (hc : c < 2 ^ 32) :
    ∀ b ∈ [c >>> 24, (c >>> 16) &&& 0xFF, (c >>> 8) &&& 0xFF, c &&& 0xFF], b < 256 := by
  have hff : ∀ x : Nat, x &&& 0xFF = x % 2 ^ 8 := fun x => Nat.and_pow_two_sub_one_eq_mod x 8
  intro b hb
  simp only [List.mem_cons, List.mem_singleton, List.not_mem_nil, or_false] at hb
  rcases hb with rfl | rfl | rfl | rfl
  · simp only [Nat.shiftRight_eq_div_pow]
    omega
  · rw [hff]; omega
  · rw [hff]; omega
  · rw [hff]; omega

/-! ### One flipped bit -/

theorem and_two_pow_ne_zero (y j : Nat) : ((y &&& 2 ^ j) != 0) = y.testBit j := by
  have hbit : ∀ i, (y &&& 2 ^ j).testBit i = (y.testBit i && decide (j = i)) := by
    intro i
    rw [Nat.testBit_and, Nat.testBit_two_pow]
  cases hb : y.testBit j
  · have h0 : y &&& 2 ^ j = 0 := by
      apply Nat.eq_of_testBit_eq
      intro i
      rw [hbit, Nat.zero_testBit]
      by_cases hi : j = i
      · subst hi; simp [hb]
      · simp [hi]
    rw [h0]; rfl
  · have h1 : (y &&& 2 ^ j).testBit j = true := by
      rw [hbit, hb]; simp
    have hne : y &&& 2 ^ j ≠ 0 := by
      intro h0
      rw [h0, Nat.zero_testBit] at h1
      exact Bool.noConfusion h1
    simpa using hne

/-- The register after one step, as a shift and a conditional XOR. -/
theorem crcBitStep_eq (c i crc : Nat) :
    crcBitStep c i crc =
      (crc <<< 1) % 2 ^ 32 ^^^
        (if (crc.testBit 31 ^^ ((c &&& i) != 0)) then 0x04c11db7 else 0) := by
  unfold crcBitStep
  simp only [and_top_ne_zero]
  cases crc.testBit 31 <;> cases ((c &&& i) != 0) <;> simp

theorem crcBitStep_testBit_zero (c i crc : Nat) :
    (crcBitStep c i crc).testBit 0 = (crc.testBit 31 ^^ ((c &&& i) != 0)) := by
  rw [crcBitStep_eq]
  have hs : ((crc <<< 1) % 2 ^ 32).testBit 0 = false := by
    rw [Nat.testBit_mod_two_pow, Nat.testBit_shiftLeft]
    simp
  rw [Nat.testBit_xor, hs]
  cases (crc.testBit 31 ^^ ((c &&& i) != 0))
  · simp
  · simp only [if_true, Bool.false_xor]
    decide

theorem crcBitStep_injective (c i r1 r2 : Nat) (h1 : r1 < 2 ^ 32) (h2 : r2 < 2 ^ 32)
    (h : crcBitStep c i r1 = crcBitStep c i r2) : r1 = r2 := by
  have hz := congrArg (fun v => Nat.testBit v 0) h
  simp only [crcBitStep_testBit_zero] at hz
  have ht : r1.testBit 31 = r2.testBit 31 := by
    cases h31 : r1.testBit 31 <;> cases h32 : r2.testBit 31 <;>
      cases hc : ((c &&& i) != 0) <;> simp [h31, h32, hc] at hz <;> rfl
  rw [crcBitStep_eq, crcBitStep_eq, ht, Nat.xor_left_inj] at h
  rw [Nat.testBit_to_div_mod, Nat.testBit_to_div_mod] at ht
  simp only [Nat.shiftLeft_eq] at h
  by_cases ha : r1 / 2 ^ 31 % 2 = 1 <;> by_cases hb : r2 / 2 ^ 31 % 2 = 1 <;>
    simp only [ha, hb, decide_True, decide_False] at ht <;>
    first
      | exact absurd ht (by decide)
      | omega

theorem crcBitStep_flip_other (x j i r : Nat) (hi : i.testBit j = false) :
    crcBitStep (x ^^^ 2 ^ j) i r = crcBitStep x i r := by
  have h : (x ^^^ 2 ^ j) &&& i = x &&& i := by
    apply Nat.eq_of_testBit_eq
    intro b
    simp only [Nat.testBit_and, Nat.testBit_xor, Nat.testBit_two_pow]
    by_cases hb : j = b
    · subst hb; simp [hi]
    · simp [hb]
  unfold crcBitStep
  rw [h]

theorem crcBitStep_flip_here (x j r : Nat) :
    crcBitStep (x ^^^ 2 ^ j) (2 ^ j) r ≠ crcBitStep x (2 ^ j) r := by
  intro h
  have hz := congrArg (fun v => Nat.testBit v 0) h
  simp only [crcBitStep_testBit_zero, and_two_pow_ne_zero, Nat.testBit_xor,
    Nat.testBit_two_pow_self] at hz
  cases h31 : r.testBit 31 <;> cases hx : x.testBit j <;> simp [h31, hx] at hz

theorem crcBitLoop_injective : ∀ (fuel c i r1 r2 : Nat), r1 < 2 ^ 32 → r2 < 2 ^ 32 →
    crcBitLoop fuel c i r1 = crcBitLoop fuel c i r2 → r1 = r2 := by
  intro fuel
  induction fuel with
  | zero =>
    intro c i r1 r2 _ _ h
    exact h
  | succ fuel ih =>
    intro c i r1 r2 h1 h2 h
    simp only [crcBitLoop] at h
    by_cases hi : i > 0
    · simp only [hi, if_true] at h
      exact crcBitStep_injective c i r1 r2 h1 h2
        (ih c _ _ _ (crcBitStep_lt _ _ _) (crcBitStep_lt _ _ _) h)
    · simpa only [hi, if_false] using h

theorem crcBitLoop_flip_below (x j : Nat) : ∀ (fuel i r : Nat), i < 2 ^ j →
    crcBitLoop fuel (x ^^^ 2 ^ j) i r = crcBitLoop fuel x i r := by
  intro fuel
  induction fuel with
  | zero =>
    intro i r _
    rfl
  | succ fuel ih =>
    intro i r hi
    simp only [crcBitLoop]
    rw [crcBitStep_flip_other x j i r (Nat.testBit_lt_two_pow hi)]
    have hs : i >>> 1 < 2 ^ j := by
      rw [Nat.shiftRight_eq_div_pow]
      exact lt_of_le_of_lt (Nat.div_le_self _ _) hi
    rw [ih (i >>> 1) _ hs]

theorem crcBitLoop_flip (x j : Nat) : ∀ (fuel k r : Nat), j ≤ k → k - j < fuel →
    crcBitLoop fuel (x ^^^ 2 ^ j) (2 ^ k) r ≠ crcBitLoop fuel x (2 ^ k) r := by
  intro fuel
  induction fuel with
  | zero =>
    intro k r _ hf
    omega
  | succ fuel ih =>
    intro k r hjk hf
    have hpos : 2 ^ k > 0 := Nat.pow_pos (by norm_num)
    simp only [crcBitLoop, hpos, if_true]
    by_cases hk : k = j
    · subst hk
      have hs : 2 ^ k >>> 1 < 2 ^ k := by
        rw [Nat.shiftRight_eq_div_pow]
        exact Nat.div_lt_self hpos (by norm_num)
      rw [crcBitLoop_flip_below x k fuel _ _ hs]
      intro h
      exact crcBitStep_flip_here x k r
        (crcBitLoop_injective fuel x _ _ _ (crcBitStep_lt _ _ _) (crcBitStep_lt _ _ _) h)
    · have hne : (2 ^ k).testBit j = false := Nat.testBit_two_pow_of_ne hk
      rw [crcBitStep_flip_other x j _ r hne]
      have hs : 2 ^ k >>> 1 = 2 ^ (k - 1) := by
        rw [Nat.shiftRight_eq_div_pow, pow_one]
        have : k = (k - 1) + 1 := by omega
        rw [this, Nat.pow_succ, Nat.mul_div_cancel _ (by norm_num)]
        simp
      rw [hs]
      exact ih (k - 1) _ (by omega) (by omega)

theorem crcLoop_ne (post : List Nat) : ∀ (r1 r2 : Nat), r1 < 2 ^ 32 → r2 < 2 ^ 32 → r1 ≠ r2 →
    crcLoop post r1 ≠ crcLoop post r2 := by
  induction post with
  | nil =>
    intro r1 r2 _ _ h
    exact h
  | cons c post ih =>
    intro r1 r2 h1 h2 h
    exact ih _ _ (crcBitLoop_eight_lt c r1) (crcBitLoop_eight_lt c r2)
      (fun he => h (crcBitLoop_injective 8 c _ r1 r2 h1 h2 he))

theorem crcLoop_flip (pre post : List Nat) (x j r : Nat) (hj : j < 8) :
    crcLoop (pre ++ (x ^^^ 2 ^ j) :: post) r ≠ crcLoop (pre ++ x :: post) r := by
  rw [crcLoop_append, crcLoop_append]
  simp only [crcLoop]
  apply crcLoop_ne post _ _ (crcBitLoop_eight_lt _ _) (crcBitLoop_eight_lt _ _)
  have h := crcBitLoop_flip x j 8 7 (crcLoop pre r) (by omega) (by omega)
  exact h

theorem getElem?_eq_of_getD_eq (a b : List Nat) (hlen : a.length = b.length) (q : Nat)
    (h : a.getD q 0 = b.getD q 0) : a[q]? = b[q]? := by
  by_cases hq : q < a.length
  · have hq2 : q < b.length := hlen ▸ hq
    rw [List.getD_eq_getElem _ _ hq, List.getD_eq_getElem _ _ hq2] at h
    rw [List.getElem?_eq_getElem hq, List.getElem?_eq_getElem hq2, h]
  · have hq2 : ¬ q < b.length := hlen ▸ hq
    rw [List.getElem?_eq_none (by omega), List.getElem?_eq_none (by omega)]

theorem split_at_index (a : List Nat) (p : Nat) (hp : p < a.length) :
    a = a.take p ++ a.getD p 0 :: a.drop (p + 1) := by
  rw [List.getD_eq_getElem _ _ hp, ← List.drop_eq_getElem_cons hp, List.take_append_drop]

/-- Two sequences of the same length that agree everywhere except at byte
`p` have the same bytes before and after `p`. -/
theorem one_byte_differs (a b : List Nat) (hlen : a.length = b.length) (p : Nat)
    (hp : p < a.length) (hsame : ∀ q, q ≠ p → a.getD q 0 = b.getD q 0) :
    b = a.take p ++ b.getD p 0 :: a.drop (p + 1) := by
  have ht : b.take p = a.take p := by
    apply List.ext_getElem?
    intro n
    rw [List.getElem?_take, List.getElem?_take]
    split
    · exact (getElem?_eq_of_getD_eq a b hlen n (hsame n (by omega))).symm
    · rfl
  have hd : b.drop (p + 1) = a.drop (p + 1) := by
    apply List.ext_getElem?
    intro n
    rw [List.getElem?_drop, List.getElem?_drop]
    exact (getElem?_eq_of_getD_eq a b hlen _ (hsame _ (by omega))).symm
  have hb := split_at_index b p (hlen ▸ hp)
  rw [ht, hd] at hb
  exact hb

/-! ## printHexBuffer -/

set_option maxRecDepth 100000 in
theorem upperHexDigits_ne_zero : ∀ d < 16, upperHexDigits.getD d 0 ≠ 0 := by
  decide

theorem hexRendering_length (bs : List Nat) : (hexRendering bs).length = 3 * bs.length := by
  induction bs with
  | nil => rfl
  | cons b bs ih =>
    simp only [hexRendering, List.length_cons, ih]
    omega

theorem hexRendering_ne_zero (bs : List Nat) (hb : ∀ b ∈ bs, b < 256) :
    ∀ c ∈ hexRendering bs, c ≠ 0 := by
  induction bs with
  | nil =>
    intro c hc
    simp [hexRendering] at hc
  | cons b bs ih =>
    intro c hc
    have hlt : b < 256 := hb b (List.mem_cons_self _ _)
    simp only [hexRendering, List.mem_cons] at hc
    rcases hc with rfl | rfl | rfl | hc
    · exact upperHexDigits_ne_zero _ (by omega)
    · exact upperHexDigits_ne_zero _ (by omega)
    · decide
    · exact ih (fun d hd => hb d (List.mem_cons_of_mem _ hd)) c hc

theorem cstr_append_zeros (text : List Nat) (m : Nat) (h : ∀ c ∈ text, c ≠ 0) :
    cstr (text ++ List.replicate m 0) = text := by
  induction text with
  | nil =>
    cases m with
    | zero => rfl
    | succ m => simp [cstr, List.replicate_succ]
  | cons c text ih =>
    have hc : c ≠ 0 := h c (List.mem_cons_self _ _)
    have ht := ih (fun d hd => h d (List.mem_cons_of_mem _ hd))
    unfold cstr at ht ⊢
    simp [List.takeWhile_cons, hc, ht]

theorem sprintfHex_byte (st : HexDump) (b : Nat) (hb : b < 256) :
    sprintfHex st b =
      { tempStr := storeAt st.tempStr st.charIndex (hexRendering [b] ++ [0])
        charIndex := st.charIndex + 3
        writes := st.writes ++ List.range' st.charIndex 4 } := by
  have h1 := upperHexDigits_getD (b / 16) (by omega)
  have h2 := upperHexDigits_getD (b % 16) (by omega)
  unfold sprintfHex
  rw [fmt02X_byte b hb]
  simp only [hexRendering, h1, h2]
  rfl

theorem storeAt_zeros (text : List Nat) (k : Nat) (b : Nat) (hk : k < 333)
    (hlen : text.length = 3 * k) :
    storeAt (text ++ List.replicate (1000 - 3 * k) 0) (3 * k) (hexRendering [b] ++ [0]) =
      (text ++ hexRendering [b]) ++ List.replicate (1000 - 3 * (k + 1)) 0 := by
  have hm : 1000 - 3 * k = 4 + (1000 - 3 * (k + 1) - 1) := by omega
  have hm2 : 1000 - 3 * (k + 1) = (1000 - 3 * (k + 1) - 1) + 1 := by omega
  unfold storeAt
  rw [List.take_left' hlen]
  have hd : List.drop (3 * k + (hexRendering [b] ++ [0]).length)
      (text ++ List.replicate (1000 - 3 * k) 0) =
      List.replicate (1000 - 3 * (k + 1) - 1) 0 := by
    have : 3 * k + (hexRendering [b] ++ [0]).length = text.length + 4 := by
      simp [hexRendering, hlen]
    rw [this, List.drop_append, hm, List.drop_replicate]
    congr 1
    omega
  rw [hd, hm2, List.replicate_succ]
  simp [hexRendering]

/-- The loop invariant of `printHexBuffer`: after `k` bytes have been
rendered, `tempStr` holds `3 * k` characters of text followed by zeros. -/
theorem printHexLoop_spec (bs : List Nat) (hb : ∀ b ∈ bs, b < 256) :
    ∀ (text : List Nat) (k : Nat) (w : List Nat), k ≤ 333 → text.length = 3 * k →
      (∀ x ∈ w, x < 1000) →
      (printHexLoop bs
          { tempStr := text ++ List.replicate (1000 - 3 * k) 0, charIndex := 3 * k,
            writes := w }).tempStr =
        (text ++ hexRendering (bs.take (333 - k))) ++
          List.replicate (1000 - 3 * (k + min bs.length (333 - k))) 0 ∧
      ∀ x ∈ (printHexLoop bs
          { tempStr := text ++ List.replicate (1000 - 3 * k) 0, charIndex := 3 * k,
            writes := w }).writes, x < 1000 := by
  induction bs with
  | nil =>
    intro text k w _ _ hw
    simp only [printHexLoop, List.take_nil, hexRendering, List.append_nil, List.length_nil,
      Nat.zero_min, Nat.add_zero]
    exact ⟨trivial, hw⟩
  | cons b bs ih =>
    intro text k w hk hlen hw
    have hlt : b < 256 := hb b (List.mem_cons_self _ _)
    have hbs : ∀ d ∈ bs, d < 256 := fun d hd => hb d (List.mem_cons_of_mem _ hd)
    by_cases hk2 : k < 333
    · have hc : 3 * k < MAX_STR_LEN - 2 := by
        simp only [MAX_STR_LEN]
        omega
      simp only [printHexLoop, hc, if_true]
      rw [sprintfHex_byte _ b hlt]
      simp only
      rw [storeAt_zeros text k b hk2 hlen]
      have hw2 : ∀ x ∈ w ++ List.range' (3 * k) 4, x < 1000 := by
        intro x hx
        rcases List.mem_append.mp hx with h | h
        · exact hw x h
        · rw [List.mem_range'_1] at h
          omega
      have h := ih hbs (text ++ hexRendering [b]) (k + 1) (w ++ List.range' (3 * k) 4)
        (by omega) (by simp [hexRendering, hlen]; omega) hw2
      have e1 : 3 * k + 3 = 3 * (k + 1) := by omega
      have e2 : 333 - k = (333 - (k + 1)) + 1 := by omega
      have e3 : k + min (b :: bs).length (333 - k) = k + 1 + min bs.length (333 - (k + 1)) := by
        simp only [List.length_cons]
        omega
      rw [e1, e3]
      refine ⟨?_, h.2⟩
      rw [h.1, e2, List.take_succ_cons]
      simp [hexRendering]
    · have hk3 : k = 333 := by omega
      subst hk3
      have hc : ¬ 3 * 333 < MAX_STR_LEN - 2 := by
        simp only [MAX_STR_LEN]
        omega
      simp only [printHexLoop, hc, if_false]
      have h := ih hbs text 333 w (by omega) hlen hw
      simpa using h

/-- The result of `printHexBuffer`: the rendering of the first 333 bytes,
then zeros up to the size of the buffer; and every write stays inside the
buffer. -/
theorem printHexBufferRun_spec (buffer : List Nat) (hb : ∀ b ∈ buffer, b < 256) :
    (printHexBufferRun buffer).tempStr =
        hexRendering (buffer.take 333) ++
          List.replicate (1000 - 3 * min buffer.length 333) 0 ∧
      ∀ x ∈ (printHexBufferRun buffer).writes, x < 1000 := by
  have h := printHexLoop_spec buffer hb [] 0 (List.range MAX_STR_LEN) (by omega) rfl
    (fun x hx => List.mem_range.mp hx)
  simp only [Nat.zero_add, Nat.sub_zero, Nat.mul_zero, List.nil_append] at h
  exact h

/-! ## The outbound MQTT queue -/

theorem drainQueue_all (q : MqttQueue) : ∀ n, q.length ≤ n → drainQueue n q = (q, []) := by
  induction q with
  | nil =>
    intro n _
    cases n <;> rfl
  | cons item q ih =>
    intro n hn
    cases n with
    | zero => simp at hn
    | succ n =>
      have h := ih n (by simpa using hn)
      simp only [drainQueue, getMQTTqueue, popMQTTqueue, List.head?_cons, List.tail_cons, h]

theorem addCalls_success (cap : Nat) (calls : List AddCall) :
    ∀ q : MqttQueue, (∀ r ∈ (addCalls cap q calls).2, r = true) →
      (addCalls cap q calls).1 = q ++ calls.map AddCall.item := by
  induction calls with
  | nil =>
    intro q _
    simp [addCalls]
  | cons c cs ih =>
    intro q h
    simp only [addCalls, List.mem_cons, forall_eq_or_imp] at h
    obtain ⟨h1, h2⟩ := h
    have hq : (addMQTTqueue cap c.alloc q c.topic c.payload c.len c.retain).2 = q ++ [c.item] := by
      unfold addMQTTqueue at h1 ⊢
      split
      · rfl
      · rename_i hc
        simp [hc] at h1
    simp only [addCalls]
    rw [ih _ h2, hq]
    simp

/-! ## The memory accesses of str2mac -/

theorem peek_drop (s : List Nat) (p : Nat) : peek (s.drop p) = s.getD p 0 := by
  unfold peek
  rw [List.getD_eq_getElem?_getD, List.headD_eq_head?_getD, List.head?_drop]

theorem tail_drop (s : List Nat) (p : Nat) : (s.drop p).tail = s.drop (p + 1) := by
  rw [List.tail_drop]

/-- The body with recorded accesses computes what `str2macBody` computes. -/
theorem str2macBodyT_eq (i : Nat) (s : List Nat) (p : Nat) :
    str2macBody i (s.drop p) = (str2macBodyT i s p).1.map (fun r => (r.1, s.drop r.2)) := by
  unfold str2macBody str2macBodyT
  simp only [peek_drop, tail_drop]
  split
  · rfl
  · split
    · split
      · rfl
      · split <;> rfl
    · rfl

theorem str2macLoopT_eq (s : List Nat) : ∀ (n i p : Nat) (t : Str2MacTrace),
    str2macLoop n i (s.drop p) t.macBytes =
      ((str2macLoopT n i s p t).ret, (str2macLoopT n i s p t).macBytes) := by
  intro n
  induction n with
  | zero =>
    intro i p t
    rfl
  | succ n ih =>
    intro i p t
    rw [str2macLoop, str2macLoopT, str2macBodyT_eq]
    rcases hb : str2macBodyT i s p with ⟨_ | ⟨v, p2⟩, rs⟩
    · rfl
    · simp only [Option.map_some']
      rw [tail_drop]
      exact ih (i + 1) (p2 + 1)
        { t with macBytes := t.macBytes.set i (v % 256), reads := t.reads ++ rs,
                 writes := t.writes ++ [i] }

theorem nul_bound (str junk : List Nat) (q : Nat) (hq : q ≤ str.length)
    (h : (str ++ 0 :: junk).getD q 0 ≠ 0) : q < str.length := by
  by_contra hn
  have he : q = str.length := by omega
  subst he
  apply h
  rw [List.getD_eq_getElem?_getD, List.getElem?_append_right (Nat.le_refl _), Nat.sub_self,
    List.getElem?_cons_zero]
  rfl

theorem ne_zero_of_hex (c : Nat) (h : notHexLower (tolower c) = false) : c ≠ 0 :=
  (hexDigit_facts c (isHexDigit_of_lower c h)).2.2.2.2.2.2.1

/-- The reads of one pass through the body stay at or before the
terminator, and so does the read pointer of the next group. -/
theorem str2macBodyT_reads (str junk : List Nat) (i p : Nat) (hp : p ≤ str.length) :
    (∀ r ∈ (str2macBodyT i (str ++ 0 :: junk) p).2, r ≤ str.length) ∧
      ∀ v p2, i < 5 → (str2macBodyT i (str ++ 0 :: junk) p).1 = some (v, p2) →
        p2 + 1 ≤ str.length := by
  unfold str2macBodyT
  simp only
  split
  · refine ⟨?_, ?_⟩
    · intro r hr
      simp only [List.mem_singleton] at hr
      omega
    · intro v p2 _ h
      exact Option.noConfusion h
  · rename_i h1
    have h1b : notHexLower (tolower ((str ++ 0 :: junk).getD p 0)) = false := by simpa using h1
    have hp1 := nul_bound str junk p hp (ne_zero_of_hex _ h1b)
    split
    · split
      · refine ⟨?_, ?_⟩
        · intro r hr
          simp only [List.mem_cons, List.mem_singleton, List.not_mem_nil, or_false] at hr
          omega
        · intro v p2 _ h
          exact Option.noConfusion h
      · rename_i h2
        have h2b : notHexLower (tolower ((str ++ 0 :: junk).getD (p + 1) 0)) = false := by
          simpa using h2
        have hp2 := nul_bound str junk (p + 1) hp1 (ne_zero_of_hex _ h2b)
        split
        · refine ⟨?_, ?_⟩
          · intro r hr
            simp only [List.mem_cons, List.mem_singleton, List.not_mem_nil, or_false] at hr
            omega
          · intro v p2 _ h
            exact Option.noConfusion h
        · rename_i h3
          refine ⟨?_, ?_⟩
          · intro r hr
            simp only [List.mem_cons, List.mem_singleton, List.not_mem_nil, or_false] at hr
            omega
          · intro v p2 hi h
            simp only [Option.some.injEq, Prod.mk.injEq] at h
            obtain ⟨-, rfl⟩ := h
            have h3b : (str ++ 0 :: junk).getD (p + 1 + 1) 0 = 58 := by
              simpa [hi] using h3
            have := nul_bound str junk (p + 1 + 1) hp2 (by rw [h3b]; decide)
            omega
    · rename_i hc
      refine ⟨?_, ?_⟩
      · intro r hr
        simp only [List.mem_cons, List.mem_singleton, List.not_mem_nil, or_false] at hr
        omega
      · intro v p2 hi h
        simp only [Option.some.injEq, Prod.mk.injEq] at h
        obtain ⟨-, rfl⟩ := h
        have h5 : (i == 5) = false := by simp; omega
        have hsep : tolower ((str ++ 0 :: junk).getD (p + 1) 0) = 58 := by
          simpa [hi, h5] using hc
        have hsep2 := tolower_eq_colon _ hsep
        have := nul_bound str junk (p + 1) hp1 (by rw [hsep2]; decide)
        omega

theorem str2macLoopT_accesses (str junk : List Nat) : ∀ (n i p : Nat) (t : Str2MacTrace),
    i + n = 6 → (0 < n → p ≤ str.length) → (∀ r ∈ t.reads, r ≤ str.length) →
    (∀ w ∈ t.writes, w < 6) →
    (∀ r ∈ (str2macLoopT n i (str ++ 0 :: junk) p t).reads, r ≤ str.length) ∧
      ∀ w ∈ (str2macLoopT n i (str ++ 0 :: junk) p t).writes, w < 6 := by
  intro n
  induction n with
  | zero =>
    intro i p t _ _ hr hw
    exact ⟨hr, hw⟩
  | succ n ih =>
    intro i p t hin hp hr hw
    have hb := str2macBodyT_reads str junk i p (hp (by omega))
    rw [str2macLoopT]
    rcases hbody : str2macBodyT i (str ++ 0 :: junk) p with ⟨_ | ⟨v, p2⟩, rs⟩
    · rw [hbody] at hb
      refine ⟨?_, hw⟩
      intro r hr2
      rcases List.mem_append.mp hr2 with h | h
      · exact hr r h
      · exact hb.1 r h
    · rw [hbody] at hb
      apply ih (i + 1) (p2 + 1) _ (by omega)
      · intro hn
        exact hb.2 v p2 (by omega) rfl
      · intro r hr2
        rcases List.mem_append.mp hr2 with h | h
        · exact hr r h
        · exact hb.1 r h
      · intro w hw2
        rcases List.mem_append.mp hw2 with h | h
        · exact hw w h
        · simp only [List.mem_singleton] at h
          omega

/-! ## The claims -/

set_option maxRecDepth 100000

/-- C1: for every byte sequence `d`, `calculateCRC32 d` is the CRC-32/MPEG-2
reference value: register `0xFFFFFFFF` at the start, each byte XORed into
the top eight bits and followed by eight conditional shifts with polynomial
`0x04C11DB7`, no reflection and no final XOR. -/
theorem calculateCRC32_eq_reference (d : List Nat) (hd : ∀ b ∈ d, b < 256) :
    calculateCRC32 d = crc32Mpeg2Ref d :=
  crcLoop_eq_foldl d hd _

theorem calculateCRC32_eq_reference_witness :
    (∀ b ∈ [0x31, 0x32, 0xfe], b < 256) ∧
      calculateCRC32 [0x31, 0x32, 0xfe] = crc32Mpeg2Ref [0x31, 0x32, 0xfe] :=
  ⟨by decide, calculateCRC32_eq_reference [0x31, 0x32, 0xfe] (by decide)⟩

/-- C2: `calculateCRC32` returns `0xFFFFFFFF` on the empty input,
`0x4E08BFB4` on the single byte `0x00` and `0x0376E6E7` on the nine ASCII
bytes of "123456789". -/
theorem calculateCRC32_vectors :
    calculateCRC32 [] = 0xFFFFFFFF ∧ calculateCRC32 [0x00] = 0x4E08BFB4 ∧
      calculateCRC32 (ofString "123456789") = 0x0376E6E7 := by
  decide

/-- C3: for every six-byte MAC `m`, the string that `mac2str` writes into a
non-null buffer is parsed back by `str2mac` with success, and the six bytes
parsed are exactly `m`. -/
theorem mac2str_str2mac_roundtrip (m buf macBytes : List Nat) (hm : m.length = 6)
    (hb : ∀ b ∈ m, b < 256) (hout : macBytes.length = 6) :
    ∃ str, mac2str (some m) (some buf) = (Ret.buffer, some str) ∧
      str2mac str macBytes = (Ret.buffer, m) := by
  obtain ⟨a, b, c, d, e, f, rfl⟩ := length_six hm
  simp only [List.mem_cons, List.mem_singleton, List.not_mem_nil, or_false, forall_eq_or_imp,
    forall_eq] at hb
  obtain ⟨ha, hb, hc, hd, he, hf⟩ := hb
  refine ⟨_, mac2str_six a b c d e f buf ha hb hc hd he hf, ?_⟩
  have h := str2mac_six_groups
    [[hexDigitUpper (a / 16), hexDigitUpper (a % 16)],
      [hexDigitUpper (b / 16), hexDigitUpper (b % 16)],
      [hexDigitUpper (c / 16), hexDigitUpper (c % 16)],
      [hexDigitUpper (d / 16), hexDigitUpper (d % 16)],
      [hexDigitUpper (e / 16), hexDigitUpper (e % 16)]]
    [hexDigitUpper (f / 16), hexDigitUpper (f % 16)] (0 :: buf.drop 18) macBytes rfl
    (by
      intro g hg
      simp only [List.mem_cons, List.mem_singleton, List.not_mem_nil, or_false] at hg
      rcases hg with rfl | rfl | rfl | rfl | rfl
      · exact (byte_group_facts a ha).1
      · exact (byte_group_facts b hb).1
      · exact (byte_group_facts c hc).1
      · exact (byte_group_facts d hd).1
      · exact (byte_group_facts e he).1)
    (byte_group_facts f hf).1
    (str2macBody_last _ _ (byte_group_facts f hf).1 (Or.inl rfl)) hout
  simp only [List.map_cons, List.map_nil, (byte_group_facts a ha).2, (byte_group_facts b hb).2,
    (byte_group_facts c hc).2, (byte_group_facts d hd).2, (byte_group_facts e he).2,
    (byte_group_facts f hf).2] at h
  exact h

theorem mac2str_str2mac_roundtrip_witness :
    ∃ str, mac2str (some [0x00, 0x1A, 0xB2, 0x3C, 0xFF, 0x09]) (some (List.replicate 18 0x55)) =
        (Ret.buffer, some str) ∧
      str2mac str [0, 0, 0, 0, 0, 0] = (Ret.buffer, [0x00, 0x1A, 0xB2, 0x3C, 0xFF, 0x09]) :=
  mac2str_str2mac_roundtrip [0x00, 0x1A, 0xB2, 0x3C, 0xFF, 0x09] (List.replicate 18 0x55)
    [0, 0, 0, 0, 0, 0] rfl (by decide) rfl

/-- C4: for every valid 17-character uppercase MAC string `s` (six groups of
exactly two characters from `0-9A-F`, separated by `':'`), `str2mac` succeeds
on `s`, and `mac2str` applied to the parsed bytes writes a string equal to
`s`. -/
theorem str2mac_mac2str_roundtrip (s macBytes buf : List Nat) (hs : IsUpperMacString s)
    (hout : macBytes.length = 6) :
    ∃ m out, str2mac s macBytes = (Ret.buffer, m) ∧
      mac2str (some m) (some buf) = (Ret.buffer, some out) ∧ cstr out = s := by
  obtain ⟨hlen, hch⟩ := hs
  obtain ⟨c0, c1, c2, c3, c4, c5, c6, c7, c8, c9, c10, c11, c12, c13, c14, c15, c16, rfl⟩ :=
    length_seventeen hlen
  have k0 := hch 0 (by omega)
  have k1 := hch 1 (by omega)
  have k2 := hch 2 (by omega)
  have k3 := hch 3 (by omega)
  have k4 := hch 4 (by omega)
  have k5 := hch 5 (by omega)
  have k6 := hch 6 (by omega)
  have k7 := hch 7 (by omega)
  have k8 := hch 8 (by omega)
  have k9 := hch 9 (by omega)
  have k10 := hch 10 (by omega)
  have k11 := hch 11 (by omega)
  have k12 := hch 12 (by omega)
  have k13 := hch 13 (by omega)
  have k14 := hch 14 (by omega)
  have k15 := hch 15 (by omega)
  have k16 := hch 16 (by omega)
  simp only [show 0 % 3 = 2 ↔ False from by decide, show 1 % 3 = 2 ↔ False from by decide, show 2 % 3 = 2 ↔ True from by decide, show 3 % 3 = 2 ↔ False from by decide, show 4 % 3 = 2 ↔ False from by decide, show 5 % 3 = 2 ↔ True from by decide, show 6 % 3 = 2 ↔ False from by decide, show 7 % 3 = 2 ↔ False from by decide, show 8 % 3 = 2 ↔ True from by decide, show 9 % 3 = 2 ↔ False from by decide, show 10 % 3 = 2 ↔ False from by decide, show 11 % 3 = 2 ↔ True from by decide, show 12 % 3 = 2 ↔ False from by decide, show 13 % 3 = 2 ↔ False from by decide, show 14 % 3 = 2 ↔ True from by decide, show 15 % 3 = 2 ↔ False from by decide, show 16 % 3 = 2 ↔ False from by decide,
    if_true, if_false, List.getD_cons_zero, List.getD_cons_succ] at k0 k1 k2 k3 k4 k5 k6 k7 k8 k9 k10 k11 k12 k13 k14 k15 k16
  subst k2
  subst k5
  subst k8
  subst k11
  subst k14
  have p0 := upper_pair_facts c0 c1 k0 k1
  have p1 := upper_pair_facts c3 c4 k3 k4
  have p2 := upper_pair_facts c6 c7 k6 k7
  have p3 := upper_pair_facts c9 c10 k9 k10
  have p4 := upper_pair_facts c12 c13 k12 k13
  have p5 := upper_pair_facts c15 c16 k15 k16
  have h := str2mac_six_groups [[c0, c1], [c3, c4], [c6, c7], [c9, c10], [c12, c13]] [c15, c16]
    [] macBytes rfl
    (by
      intro g hg
      simp only [List.mem_cons, List.mem_singleton, List.not_mem_nil, or_false] at hg
      rcases hg with rfl | rfl | rfl | rfl | rfl
      · exact p0.1
      · exact p1.1
      · exact p2.1
      · exact p3.1
      · exact p4.1)
    p5.1 (str2macBody_last _ _ p5.1 (Or.inl rfl)) hout
  refine ⟨_, _, h, mac2str_six _ _ _ _ _ _ buf p0.2.1 p1.2.1 p2.2.1 p3.2.1 p4.2.1 p5.2.1, ?_⟩
  rw [p0.2.2.1, p0.2.2.2, p1.2.2.1, p1.2.2.2, p2.2.2.1, p2.2.2.2, p3.2.2.1, p3.2.2.2,
    p4.2.2.1, p4.2.2.2, p5.2.2.1, p5.2.2.2]
  apply cstr_seventeen
  intro x hx
  simp only [List.mem_cons, List.mem_singleton, List.not_mem_nil, or_false] at hx
  rcases hx with rfl | rfl | rfl | rfl | rfl | rfl | rfl | rfl | rfl | rfl | rfl | rfl |
    rfl | rfl | rfl | rfl | rfl
  · exact (upperHexDigit_facts _ k0).2.2.2
  · exact (upperHexDigit_facts _ k1).2.2.2
  · rfl
  · exact (upperHexDigit_facts _ k3).2.2.2
  · exact (upperHexDigit_facts _ k4).2.2.2
  · rfl
  · exact (upperHexDigit_facts _ k6).2.2.2
  · exact (upperHexDigit_facts _ k7).2.2.2
  · rfl
  · exact (upperHexDigit_facts _ k9).2.2.2
  · exact (upperHexDigit_facts _ k10).2.2.2
  · rfl
  · exact (upperHexDigit_facts _ k12).2.2.2
  · exact (upperHexDigit_facts _ k13).2.2.2
  · rfl
  · exact (upperHexDigit_facts _ k15).2.2.2
  · exact (upperHexDigit_facts _ k16).2.2.2

theorem str2mac_mac2str_roundtrip_witness :
    ∃ m out, str2mac (ofString "AA:0B:C9:11:F2:3D") [0, 0, 0, 0, 0, 0] = (Ret.buffer, m) ∧
      mac2str (some m) (some (List.replicate 18 0x55)) = (Ret.buffer, some out) ∧
      cstr out = ofString "AA:0B:C9:11:F2:3D" :=
  str2mac_mac2str_roundtrip (ofString "AA:0B:C9:11:F2:3D") [0, 0, 0, 0, 0, 0]
    (List.replicate 18 0x55) (by decide) rfl

/-- C5: a string of six groups of one or two hexadecimal digits (letters in
either case), separated by single colons, with the sixth group followed by
the end of the string or by white space, is accepted by `str2mac`, and byte
`i` of the output is the numeric value of group `i`; in particular
"aa:bb:cc:11:22:33" gives `AA BB CC 11 22 33`. -/
theorem str2mac_accepts (gs : List (List Nat)) (g5 rest macBytes : List Nat)
    (hlen : gs.length = 5) (hgs : ∀ g ∈ gs, IsHexGroup g) (hg5 : IsHexGroup g5)
    (hend : peek rest = 0 ∨ isspace (peek rest) = true) (hbuf : macBytes.length = 6) :
    str2mac (colonGroups gs (g5 ++ rest)) macBytes =
        (Ret.buffer, gs.map groupValue ++ [groupValue g5]) ∧
      str2mac (ofString "aa:bb:cc:11:22:33") macBytes =
        (Ret.buffer, [0xAA, 0xBB, 0xCC, 0x11, 0x22, 0x33]) := by
  refine ⟨str2mac_six_groups gs g5 rest macBytes hlen hgs hg5
    (str2macBody_last g5 rest hg5 hend) hbuf, ?_⟩
  have hex : ∀ g ∈ [[97, 97], [98, 98], [99, 99], [49, 49], [50, 50], [51, 51]],
      IsHexGroup g := by
    intro g hg
    simp only [List.mem_cons, List.mem_singleton, List.not_mem_nil, or_false] at hg
    rcases hg with rfl | rfl | rfl | rfl | rfl | rfl <;>
      exact ⟨Or.inr rfl, by decide⟩
  have h := str2mac_six_groups [[97, 97], [98, 98], [99, 99], [49, 49], [50, 50]] [51, 51] []
    macBytes rfl (fun g hg => hex g (by simp at hg ⊢; tauto)) (hex _ (by simp))
    (by decide) hbuf
  exact h

theorem str2mac_accepts_witness :
    str2mac (colonGroups [[0x41], [0x62, 0x33], [0x30], [0x46, 0x66], [0x39]] ([0x37] ++ [0x20]))
        [0, 0, 0, 0, 0, 0] =
        (Ret.buffer, [[0x41], [0x62, 0x33], [0x30], [0x46, 0x66], [0x39]].map groupValue ++
          [groupValue [0x37]]) ∧
      str2mac (ofString "aa:bb:cc:11:22:33") [0, 0, 0, 0, 0, 0] =
        (Ret.buffer, [0xAA, 0xBB, 0xCC, 0x11, 0x22, 0x33]) :=
  str2mac_accepts [[0x41], [0x62, 0x33], [0x30], [0x46, 0x66], [0x39]] [0x37] [0x20]
    [0, 0, 0, 0, 0, 0] rfl (by decide) (by decide) (by decide) rfl

/-- C6 (the code departs from the claim): a two-digit sixth group followed
by the garbage "xyz" is accepted by `str2mac`, although the character after
the group is neither the terminator nor white space. -/
theorem str2mac_trailing_garbage_accepted :
    str2mac (ofString "aa:bb:cc:11:22:33xyz") [0, 0, 0, 0, 0, 0] =
      (Ret.buffer, [0xAA, 0xBB, 0xCC, 0x11, 0x22, 0x33]) := by
  decide

/-- C7: whenever `str2mac` succeeds the input begins with six groups of one
or two hexadecimal digits separated by single colons; so an input with a
character that is not a hexadecimal digit where a digit is expected, with
fewer than six groups, or with one of the first five groups not followed at
once by `':'`, is rejected. In particular "aa-bb-cc-11-22-33" is rejected. -/
theorem str2mac_rejects (s macBytes : List Nat) :
    ((str2mac s macBytes).1 = Ret.buffer → BeginsWithSixGroups s) ∧
      (¬ BeginsWithSixGroups s → (str2mac s macBytes).1 = Ret.null) ∧
      (str2mac (ofString "aa-bb-cc-11-22-33") macBytes).1 = Ret.null := by
  have key : (str2mac s macBytes).1 = Ret.buffer → BeginsWithSixGroups s := by
    intro h
    have h2 : str2macLoop (5 + 1) 0 s macBytes = (Ret.buffer, (str2mac s macBytes).2) := by
      rw [← h]
      rfl
    obtain ⟨gs, g5, rest, hlen, hgs, hg5, hs⟩ := str2macLoop_buffer 5 0 s macBytes _ rfl h2
    exact ⟨gs, g5, rest, hlen, hgs, hg5, hs⟩
  refine ⟨key, ?_, rfl⟩
  intro hn
  cases hr : (str2mac s macBytes).1 with
  | null => rfl
  | buffer => exact absurd (key hr) hn

theorem str2mac_rejects_witness :
    BeginsWithSixGroups (ofString "1:2:3:4:5:6") :=
  (str2mac_rejects (ofString "1:2:3:4:5:6") [0, 0, 0, 0, 0, 0]).1 (by decide)

/-- C8 (the claim as stated fails): on "aa:zz" the call fails, yet byte 0 of
the output buffer has been overwritten with the value of the first group. -/
theorem str2mac_failure_mutates :
    str2mac (ofString "aa:zz") [1, 2, 3, 4, 5, 6] = (Ret.null, [0xAA, 2, 3, 4, 5, 6]) ∧
      (str2mac (ofString "aa:zz") [1, 2, 3, 4, 5, 6]).2 ≠ [1, 2, 3, 4, 5, 6] := by
  decide

/-- C8 (amended): when `str2mac` fails, it has parsed some `k < 6` groups,
each followed by `':'`, and rejected the next one; output bytes `0..k-1` hold
the values of the parsed groups and bytes `k..5` are as before the call. -/
theorem str2mac_failure_frame (s macBytes out : List Nat) (hbuf : macBytes.length = 6)
    (h : str2mac s macBytes = (Ret.null, out)) :
    ∃ (gs : List (List Nat)) (rest : List Nat), gs.length < 6 ∧ (∀ g ∈ gs, IsHexGroup g) ∧
      s = colonGroups gs rest ∧ str2macBody gs.length rest = none ∧
      out = gs.map groupValue ++ macBytes.drop gs.length := by
  obtain ⟨gs, rest, hlen, hgs, hs, hnone, hout⟩ :=
    str2macLoop_null 6 0 s macBytes out rfl hbuf h
  refine ⟨gs, rest, hlen, hgs, hs, ?_, ?_⟩
  · simpa using hnone
  · simpa using hout

theorem str2mac_failure_frame_witness :
    ∃ (gs : List (List Nat)) (rest : List Nat), gs.length < 6 ∧ (∀ g ∈ gs, IsHexGroup g) ∧
      ofString "aa:zz" = colonGroups gs rest ∧ str2macBody gs.length rest = none ∧
      [0xAA, 2, 3, 4, 5, 6] = gs.map groupValue ++ [1, 2, 3, 4, 5, 6].drop gs.length :=
  str2mac_failure_frame (ofString "aa:zz") [1, 2, 3, 4, 5, 6] [0xAA, 2, 3, 4, 5, 6] rfl
    (by decide)

/-- C9: for six bytes `m` and a non-null buffer, `mac2str` writes a string of
exactly 17 characters `XX:XX:XX:XX:XX:XX`: the characters at positions `3i`
and `3i+1` are the uppercase hexadecimal digits of the high and the low
nibble of `m[i]`, and positions 2, 5, 8, 11 and 14 hold `':'`. -/
theorem mac2str_format (m buf : List Nat) (hm : m.length = 6) (hb : ∀ b ∈ m, b < 256) :
    ∃ out, mac2str (some m) (some buf) = (Ret.buffer, some out) ∧ (cstr out).length = 17 ∧
      (∀ i < 6, (cstr out).getD (3 * i) 0 = upperHexDigits.getD (m.getD i 0 / 16) 0 ∧
        (cstr out).getD (3 * i + 1) 0 = upperHexDigits.getD (m.getD i 0 % 16) 0) ∧
      (∀ i < 5, (cstr out).getD (3 * i + 2) 0 = 58) := by
  obtain ⟨a, b, c, d, e, f, rfl⟩ := length_six hm
  simp only [List.mem_cons, List.mem_singleton, List.not_mem_nil, or_false, forall_eq_or_imp,
    forall_eq] at hb
  obtain ⟨ha, hb, hc, hd, he, hf⟩ := hb
  refine ⟨_, mac2str_six a b c d e f buf ha hb hc hd he hf, ?_⟩
  rw [cstr_seventeen _ _ _ _ _ _ _ _ _ _ _ _ _ _ _ _ _ _ (by
    intro x hx
    simp only [List.mem_cons, List.mem_singleton, List.not_mem_nil, or_false] at hx
    rcases hx with rfl | rfl | rfl | rfl | rfl | rfl | rfl | rfl | rfl | rfl | rfl | rfl |
      rfl | rfl | rfl | rfl | rfl <;>
      first | exact hexDigitUpper_ne_zero _ | rfl)]
  have t : ∀ x, x < 256 → hexDigitUpper (x / 16) = upperHexDigits.getD (x / 16) 0 ∧
      hexDigitUpper (x % 16) = upperHexDigits.getD (x % 16) 0 := fun x hx =>
    ⟨(upperHexDigits_getD _ (by omega)).symm, (upperHexDigits_getD _ (by omega)).symm⟩
  refine ⟨rfl, ?_, ?_⟩
  · intro i hi
    interval_cases i
    · simpa using t a ha
    · simpa using t b hb
    · simpa using t c hc
    · simpa using t d hd
    · simpa using t e he
    · simpa using t f hf
  · intro i hi
    interval_cases i <;> rfl

theorem mac2str_format_witness :
    ∃ out, mac2str (some [0x00, 0x1A, 0xB2, 0x3C, 0xFF, 0x09]) (some (List.replicate 18 0x55)) =
        (Ret.buffer, some out) ∧ (cstr out).length = 17 ∧
      (∀ i < 6, (cstr out).getD (3 * i) 0 =
          upperHexDigits.getD ([0x00, 0x1A, 0xB2, 0x3C, 0xFF, 0x09].getD i 0 / 16) 0 ∧
        (cstr out).getD (3 * i + 1) 0 =
          upperHexDigits.getD ([0x00, 0x1A, 0xB2, 0x3C, 0xFF, 0x09].getD i 0 % 16) 0) ∧
      (∀ i < 5, (cstr out).getD (3 * i + 2) 0 = 58) :=
  mac2str_format [0x00, 0x1A, 0xB2, 0x3C, 0xFF, 0x09] (List.replicate 18 0x55) rfl (by decide)

/-- C10: `mac2str` returns `NULL` exactly when the MAC pointer or the buffer
pointer is `NULL`; when both are present it returns the caller's buffer; and
when it fails the buffer is left as it was. -/
theorem mac2str_null_iff (mac buffer : Option (List Nat)) :
    ((mac2str mac buffer).1 = Ret.null ↔ (mac = none ∨ buffer = none)) ∧
      ((mac2str mac buffer).1 = Ret.buffer ↔ (mac ≠ none ∧ buffer ≠ none)) ∧
      ((mac2str mac buffer).1 = Ret.null → (mac2str mac buffer).2 = buffer) := by
  cases mac <;> cases buffer <;> simp [mac2str]

theorem mac2str_null_iff_witness :
    (mac2str none (some [1, 2, 3])).2 = some [1, 2, 3] :=
  (mac2str_null_iff none (some [1, 2, 3])).2.2 (by decide)

/-- C11: for all byte sequences `a` and `b`, `calculateCRC32 (a ++ b)` is the
value obtained by running the per-byte update loop of `calculateCRC32` over
`b` from the register value `calculateCRC32 a` instead of `0xFFFFFFFF`. -/
theorem calculateCRC32_append (a b : List Nat) :
    calculateCRC32 (a ++ b) = crcLoop b (calculateCRC32 a) :=
  crcLoop_append a b _

/-- C15: for every byte sequence `m` with `c = calculateCRC32 m`, the CRC of
`m` followed by the four bytes of `c`, most significant byte first, is
zero. -/
theorem calculateCRC32_own_crc_appended (m : List Nat) :
    calculateCRC32 (m ++ [calculateCRC32 m >>> 24, (calculateCRC32 m >>> 16) &&& 0xFF,
      (calculateCRC32 m >>> 8) &&& 0xFF, calculateCRC32 m &&& 0xFF]) = 0x00000000 := by
  have hc := calculateCRC32_lt m
  show crcLoop _ _ = _
  rw [crcLoop_append, crcLoop_eq_foldl _ (own_bytes_lt _ hc)]
  exact refByte_own_bytes _

/-- C16: two byte sequences of the same length that differ in exactly one
bit (bit `j` of the byte at position `p`, every other byte being the same)
have different `calculateCRC32` values. -/
theorem calculateCRC32_single_bit_error (a b : List Nat) (p j : Nat)
    (hlen : a.length = b.length) (hp : p < a.length) (hj : j < 8)
    (hflip : b.getD p 0 = a.getD p 0 ^^^ 2 ^ j)
    (hsame : ∀ q, q ≠ p → a.getD q 0 = b.getD q 0) :
    calculateCRC32 a ≠ calculateCRC32 b := by
  have ha := split_at_index a p hp
  have hb := one_byte_differs a b hlen p hp hsame
  rw [hflip] at hb
  rw [ha, hb]
  exact (crcLoop_flip _ _ _ j _ hj).symm

theorem calculateCRC32_single_bit_error_witness :
    calculateCRC32 [0x31, 0x32, 0x33, 0x34] ≠ calculateCRC32 [0x31, 0x32, 0x13, 0x34] :=
  calculateCRC32_single_bit_error [0x31, 0x32, 0x33, 0x34] [0x31, 0x32, 0x13, 0x34] 2 5 rfl
    (by decide) (by decide) (by decide)
    (by
      intro q hq
      match q, hq with
      | 0, _ => rfl
      | 1, _ => rfl
      | 2, h => exact absurd rfl h
      | 3, _ => rfl
      | _ + 4, _ => rfl)

/-- C12: for every byte sequence of length `n` (at most 65535, the range of
`len`), `printHexBuffer` returns the rendering of its first `min n 333`
bytes in order, each byte as two uppercase hexadecimal digits, high nibble
first, followed by one space, and nothing else; the result has
`3 * min n 333` characters. -/
theorem printHexBuffer_renders (buffer : List Nat) (hb : ∀ b ∈ buffer, b < 256)
    (_hlen : buffer.length ≤ 65535) :
    cstr (printHexBuffer buffer) = hexRendering (buffer.take (min buffer.length 333)) ∧
      (cstr (printHexBuffer buffer)).length = 3 * min buffer.length 333 := by
  have htake : buffer.take (min buffer.length 333) = buffer.take 333 := by
    rw [Nat.min_comm, ← List.take_take, List.take_length]
  have h := (printHexBufferRun_spec buffer hb).1
  have hz := hexRendering_ne_zero (buffer.take 333)
    (fun b hm => hb b (List.mem_of_mem_take hm))
  have hc : cstr (printHexBuffer buffer) = hexRendering (buffer.take 333) := by
    unfold printHexBuffer
    rw [h]
    exact cstr_append_zeros _ _ hz
  rw [htake, hc, hexRendering_length, List.length_take, Nat.min_comm]
  exact ⟨rfl, rfl⟩

theorem printHexBuffer_renders_witness :
    cstr (printHexBuffer (List.replicate 400 0xAB)) =
        hexRendering ((List.replicate 400 0xAB).take (min (List.replicate 400 0xAB).length 333)) ∧
      (cstr (printHexBuffer (List.replicate 400 0xAB))).length =
        3 * min (List.replicate 400 0xAB).length 333 :=
  printHexBuffer_renders (List.replicate 400 0xAB)
    (fun b hb => by rw [List.eq_of_mem_replicate hb]; decide) (by simp)

/-- C13: for every byte sequence of length at most 65535, every write that
`printHexBuffer` makes into `tempStr` (the `memset`, the characters and the
terminator of each `sprintf`) is at an index below 1000, and the returned
string is terminated inside the buffer: its length is at most 999 and the
byte right after it is the terminator. -/
theorem printHexBuffer_in_bounds (buffer : List Nat) (hb : ∀ b ∈ buffer, b < 256)
    (_hlen : buffer.length ≤ 65535) :
    (∀ x ∈ (printHexBufferRun buffer).writes, x < MAX_STR_LEN) ∧
      (printHexBuffer buffer).length = MAX_STR_LEN ∧
      (cstr (printHexBuffer buffer)).length ≤ 999 ∧
      (printHexBuffer buffer)[(cstr (printHexBuffer buffer)).length]? = some 0 := by
  obtain ⟨h, hw⟩ := printHexBufferRun_spec buffer hb
  have hz := hexRendering_ne_zero (buffer.take 333)
    (fun b hm => hb b (List.mem_of_mem_take hm))
  have hc : cstr (printHexBuffer buffer) = hexRendering (buffer.take 333) := by
    unfold printHexBuffer
    rw [h]
    exact cstr_append_zeros _ _ hz
  have hl : (hexRendering (buffer.take 333)).length = 3 * min buffer.length 333 := by
    rw [hexRendering_length, List.length_take, Nat.min_comm]
  refine ⟨hw, ?_, ?_, ?_⟩
  · unfold printHexBuffer
    rw [h, List.length_append, hl, List.length_replicate]
    simp only [MAX_STR_LEN]
    omega
  · rw [hc, hl]
    omega
  · rw [hc]
    unfold printHexBuffer
    rw [h, List.getElem?_append_right (Nat.le_refl _), Nat.sub_self]
    have hm : 1000 - 3 * min buffer.length 333 = (1000 - 3 * min buffer.length 333 - 1) + 1 := by
      omega
    rw [hm, List.replicate_succ]
    exact List.getElem?_cons_zero

theorem printHexBuffer_in_bounds_witness :
    (∀ x ∈ (printHexBufferRun [0x01, 0xAB, 0xFF]).writes, x < MAX_STR_LEN) ∧
      (printHexBuffer [0x01, 0xAB, 0xFF]).length = MAX_STR_LEN ∧
      (cstr (printHexBuffer [0x01, 0xAB, 0xFF])).length ≤ 999 ∧
      (printHexBuffer [0x01, 0xAB, 0xFF])[(cstr (printHexBuffer [0x01, 0xAB, 0xFF])).length]? =
        some 0 :=
  printHexBuffer_in_bounds [0x01, 0xAB, 0xFF] (by decide) (by decide)

/-- C14: after a sequence of successful `addMQTTqueue` calls, repeated
`getMQTTqueue` and `popMQTTqueue` observe the records in exactly the order in
which they were enqueued (after the records that were already queued), one
record per call, each with the topic, payload, payload length and retain
flag that were passed to its call; the queue is empty afterwards. -/
theorem mqtt_queue_fifo (cap : Nat) (q : MqttQueue) (calls : List AddCall) (n : Nat)
    (hok : ∀ r ∈ (addCalls cap q calls).2, r = true)
    (hn : q.length + calls.length ≤ n) :
    drainQueue n (addCalls cap q calls).1 = (q ++ calls.map AddCall.item, []) := by
  rw [addCalls_success cap calls q hok]
  exact drainQueue_all _ n (by simpa using hn)

theorem mqtt_queue_fifo_witness :
    drainQueue 3 (addCalls 8 []
        [⟨[0x61], [1, 2], 2, true, true⟩, ⟨[0x62], [3], 1, false, true⟩,
          ⟨[0x61], [1, 2], 2, true, true⟩]).1 =
      (([] : MqttQueue) ++
        [⟨[0x61], [1, 2], 2, true, true⟩, ⟨[0x62], [3], 1, false, true⟩,
          ⟨[0x61], [1, 2], 2, true, true⟩].map AddCall.item, []) :=
  mqtt_queue_fifo 8 [] _ 3 (by decide) (by decide)

/-- C17: on memory that holds the string `str`, its terminator and anything
after it, `str2mac` reads only offsets up to and including that of the
terminator, on success and on failure, and writes only output bytes
`0..5`; the run with recorded accesses returns what `str2mac` returns. -/
theorem str2mac_accesses (str junk macBytes : List Nat) (hstr : 0 ∉ str) :
    (∀ r ∈ (str2macT (str ++ 0 :: junk) macBytes).reads, r ≤ str.length) ∧
      (∀ w ∈ (str2macT (str ++ 0 :: junk) macBytes).writes, w < 6) ∧
      str2mac (str ++ 0 :: junk) macBytes =
        ((str2macT (str ++ 0 :: junk) macBytes).ret,
          (str2macT (str ++ 0 :: junk) macBytes).macBytes) ∧
      (str ++ 0 :: junk).indexOf 0 = str.length := by
  have h := str2macLoopT_accesses str junk 6 0 0
    { ret := Ret.buffer, macBytes := macBytes, reads := [], writes := [] } rfl
    (fun _ => Nat.zero_le _) (by simp) (by simp)
  refine ⟨h.1, h.2, ?_, ?_⟩
  · exact str2macLoopT_eq (str ++ 0 :: junk) 6 0 0
      { ret := Ret.buffer, macBytes := macBytes, reads := [], writes := [] }
  · rw [List.indexOf_append_of_not_mem hstr]
    simp

theorem str2mac_accesses_witness :
    (∀ r ∈ (str2macT (ofString "aa:bb:c" ++ 0 :: [0x31, 0x32]) [0, 0, 0, 0, 0, 0]).reads,
        r ≤ (ofString "aa:bb:c").length) ∧
      (∀ w ∈ (str2macT (ofString "aa:bb:c" ++ 0 :: [0x31, 0x32]) [0, 0, 0, 0, 0, 0]).writes,
        w < 6) ∧
      str2mac (ofString "aa:bb:c" ++ 0 :: [0x31, 0x32]) [0, 0, 0, 0, 0, 0] =
        ((str2macT (ofString "aa:bb:c" ++ 0 :: [0x31, 0x32]) [0, 0, 0, 0, 0, 0]).ret,
          (str2macT (ofString "aa:bb:c" ++ 0 :: [0x31, 0x32]) [0, 0, 0, 0, 0, 0]).macBytes) ∧
      (ofString "aa:bb:c" ++ 0 :: [0x31, 0x32]).indexOf 0 = (ofString "aa:bb:c").length :=
  str2mac_accesses (ofString "aa:bb:c") [0x31, 0x32] [0, 0, 0, 0, 0, 0] (by decide)

end EnigmaIOT
